import Mathlib

/-!
Verification development for the HyperDiskUsage scanning core
(`hyperdu-core`).  The Rust sources are shallowly embedded: pure data
and control flow are translated into executable Lean definitions and
the claims of the specification are settled as theorems about those
definitions.

Conventions used throughout the embedding:
* machine integers (`u64`, `u128`, `usize`) are modelled as `Nat`,
  with explicit `% 2 ^ w` reductions exactly where the Rust code
  truncates or wraps;
* a `PathBuf` is modelled as its list of components
  (`components()`), an opaque `Nat` standing for each normal
  component name; `Path::parent` returns `none` exactly on the empty
  path and on the lone root-directory path, otherwise it drops the
  last component;
* the `AHashMap` statistics map is modelled as an association list
  with distinct keys (`Nodup` hypotheses state that distinctness);
* atomics are modelled by explicit state passing; their values are
  plain `Nat`/`Bool` fields;
* byte strings (raw entry names) are lists of `Nat` bytes.
-/

/-- Per-directory totals, mirror of `struct Stat` in
`hyperdu-core/src/lib.rs` (fields `logical`, `physical`, `files`, all
`u64`). -/
structure Stat where
  logical : Nat
  physical : Nat
  files : Nat
deriving DecidableEq

/-- The all-zero statistic, the `Default` value of `Stat`. -/
def Stat.zero : Stat := ⟨0, 0, 0⟩

/-- Pointwise addition of statistics, mirroring the repeated
`e.logical += v.logical; e.physical += v.physical; e.files += v.files`
merge idiom of the source. -/
def Stat.add (a b : Stat) : Stat :=
  ⟨a.logical + b.logical, a.physical + b.physical, a.files + b.files⟩

instance : Add Stat := ⟨Stat.add⟩

/-- Componentwise order on statistics, used to state that one total
contains another. -/
def statLe (a b : Stat) : Prop :=
  a.logical ≤ b.logical ∧ a.physical ≤ b.physical ∧ a.files ≤ b.files

/-- Sum of a list of statistics. -/
def sumStats (l : List Stat) : Stat := l.foldr (fun a b => a + b) Stat.zero

/-- Path component: either the root directory or a normal component
with an opaque name. -/
inductive PComp where
  | rootDir : PComp
  | name : Nat → PComp
deriving DecidableEq

/-- A path is its list of components. -/
abbrev RPath := List PComp

/-- Number of components of a path, mirror of
`p.components().count()` in `rollup.rs` (`depth_of`). -/
def depthOf (p : RPath) : Nat := p.length

/-- Mirror of `Path::parent`: `None` on the empty path and on `"/"`,
otherwise the path without its final component. -/
def parentOf (p : RPath) : Option RPath :=
  if p = [] ∨ p = [PComp.rootDir] then none else some p.dropLast

/-- Fuel-driven worker computing the chain of strict ancestors of a
path obtained by iterating `parentOf`. -/
def ancChainAux : Nat → RPath → List RPath
  | 0, _ => []
  | fuel + 1, p =>
    if p = [] ∨ p = [PComp.rootDir] then []
    else p.dropLast :: ancChainAux fuel p.dropLast

/-- Chain of strict ancestors of `p` under iterated `Path::parent`,
nearest parent first. -/
def ancChain (p : RPath) : List RPath := ancChainAux p.length p

/-- The statistics map (`StatMap = AHashMap<PathBuf, Stat>`) modelled
as an association list. -/
abbrev SMap := List (RPath × Stat)

/-- Key lookup in the association-list model of `StatMap`. -/
def lookupS : SMap → RPath → Option Stat
  | [], _ => none
  | (k, s) :: t, q => if k = q then some s else lookupS t q

/-- Mirror of `merged.entry(k).or_default()` followed by adding `s`:
update the entry for `k`, creating it (from the zero default) when it
is missing. -/
def addTo : SMap → RPath → Stat → SMap
  | [], k, s => [(k, s)]
  | (k', s') :: t, k, s =>
    if k' = k then (k', s' + s) :: t else (k', s') :: addTo t k s

/-- Value stored at a key, defaulting to zero when the key is absent. -/
def valAt (m : SMap) (k : RPath) : Stat := (lookupS m k).getD Stat.zero

/-- Whether the map has an entry for the key. -/
def hasKey (m : SMap) (k : RPath) : Bool := (lookupS m k).isSome

/-- Key list of the map (`merged.keys()`). -/
def keysOf (m : SMap) : List RPath := m.map Prod.fst

/-- Keys of the given key list whose depth is `d`; mirror of the
`by_depth` bucket for depth `d` in `rollup_child_to_parent`. -/
def keysAtDepth (ks : List RPath) (d : Nat) : List RPath :=
  ks.filter (fun p => decide (depthOf p = d))

/-- Body of the inner loop of `rollup_child_to_parent`: for one path
`p`, look up its current statistic and add it to the parent entry
(creating the parent entry if missing); paths without a parent are
skipped. -/
def rollStep (m : SMap) (p : RPath) : SMap :=
  match parentOf p with
  | none => m
  | some par =>
    match lookupS m p with
    | none => m
    | some st => addTo m par st

/-- Processing of one depth bucket: the inner `for p in paths` loop. -/
def processLevel (m : SMap) (ps : List RPath) : SMap := ps.foldl rollStep m

/-- Mirror of the `maxd` computation in `rollup_child_to_parent`. -/
def maxDepthOf (ks : List RPath) : Nat :=
  ks.foldl (fun acc p => max acc (depthOf p)) 0

/-- The iteration sequence `(1..=d).rev()`, that is `[d, d-1, …, 1]`. -/
def levelsDown : Nat → List Nat
  | 0 => []
  | d + 1 => (d + 1) :: levelsDown d

/-- Folding the per-depth processing over a list of depths. -/
def levelFold (ks : List RPath) (M : SMap) (ds : List Nat) : SMap :=
  ds.foldl (fun acc d => processLevel acc (keysAtDepth ks d)) M

/-- Mirror of `rollup_child_to_parent` in `hyperdu-core/src/rollup.rs`:
bucket the keys by depth, then for each depth from the deepest down to
1 add every bucketed path's current statistic to its parent entry.
Iteration order inside one bucket follows the input order of the map;
the source iterates a hash bucket in unspecified order, and all
per-depth updates commute because addition of statistics commutes. -/
def rollup_child_to_parent (m : SMap) : SMap :=
  levelFold (keysOf m) m (levelsDown (maxDepthOf (keysOf m)))

/-- `q` lies strictly below `p` and every path strictly between them
on the parent chain is a member of the key list `ks`.  This is the
exact condition under which the per-depth rollup transports the direct
contribution of `q` all the way up to `p`. -/
def connTo (ks : List RPath) (q p : RPath) : Prop :=
  p ∈ ancChain q ∧ ∀ r ∈ ancChain q, p ∈ ancChain r → r ∈ ks

instance (ks : List RPath) (q p : RPath) : Decidable (connTo ks q p) :=
  inferInstanceAs
    (Decidable (p ∈ ancChain q ∧ ∀ r ∈ ancChain q, p ∈ ancChain r → r ∈ ks))

/-- Sum of the values of the entries of `ents` whose key is connected
to `p` through the key list `ks`. -/
def connSumK (ks : List RPath) (ents : SMap) (p : RPath) : Stat :=
  sumStats ((ents.filter (fun e => decide (connTo ks e.1 p))).map Prod.snd)

/-- Sum of the pre-rollup contributions that actually reach `p`. -/
def connSum (m : SMap) (p : RPath) : Stat := connSumK (keysOf m) m p

/-- Sum of the values of the entries of `ents` whose key equals `c`. -/
def eqSum (ents : SMap) (c : RPath) : Stat :=
  sumStats ((ents.filter (fun e => decide (e.1 = c))).map Prod.snd)

/-- Sum of the direct contributions of all keys strictly below `p`
(the "descendants of p" of the specification). -/
def descSum (m : SMap) (p : RPath) : Stat :=
  sumStats ((m.filter (fun e => decide (p ∈ ancChain e.1))).map Prod.snd)

/-!
Filter pipeline (`hyperdu-core/src/filters.rs`, `common_ops.rs` and
`name_matches` in `lib.rs`).  Raw entry names and joined paths are
byte lists.  The compiled `RegexSet` and `GlobSet` matchers are opaque
compiled objects in the source; they are modelled as abstract boolean
predicates on the byte string they are applied to.  The Aho-Corasick
automaton built from `exclude_contains` is modelled by its semantics:
some pattern occurs as a contiguous byte segment (this includes the
empty pattern, which the automaton matches everywhere).
-/

/-- `startsSeg pat l` holds when `pat` is an initial segment of `l`. -/
def startsSeg : List Nat → List Nat → Bool
  | [], _ => true
  | _ :: _, [] => false
  | a :: ps, b :: ls => a == b && startsSeg ps ls

/-- `hasSeg pat l` holds when `pat` occurs contiguously inside `l`;
this is the matching semantics of both `memchr::memmem::find` and of a
single Aho-Corasick substring pattern. -/
def hasSeg (pat : List Nat) : List Nat → Bool
  | [] => startsSeg pat []
  | b :: t => startsSeg pat (b :: t) || hasSeg pat t

/-- One byte is a UTF-8 continuation byte. -/
def isCont (c : Nat) : Bool := 0x80 ≤ c && c ≤ 0xBF

/-- Strict UTF-8 validity of a byte list, the success condition of
`std::str::from_utf8` used by `name_matches`. -/
def utf8Valid : List Nat → Bool
  | [] => true
  | b :: t =>
    if b < 0x80 then utf8Valid t
    else if 0xC2 ≤ b && b ≤ 0xDF then
      match t with
      | c1 :: t1 => isCont c1 && utf8Valid t1
      | [] => false
    else if b = 0xE0 then
      match t with
      | c1 :: c2 :: t2 => (0xA0 ≤ c1 && c1 ≤ 0xBF) && isCont c2 && utf8Valid t2
      | _ => false
    else if (0xE1 ≤ b && b ≤ 0xEC) || b = 0xEE || b = 0xEF then
      match t with
      | c1 :: c2 :: t2 => isCont c1 && isCont c2 && utf8Valid t2
      | _ => false
    else if b = 0xED then
      match t with
      | c1 :: c2 :: t2 => (0x80 ≤ c1 && c1 ≤ 0x9F) && isCont c2 && utf8Valid t2
      | _ => false
    else if b = 0xF0 then
      match t with
      | c1 :: c2 :: c3 :: t3 =>
        (0x90 ≤ c1 && c1 ≤ 0xBF) && isCont c2 && isCont c3 && utf8Valid t3
      | _ => false
    else if 0xF1 ≤ b && b ≤ 0xF3 then
      match t with
      | c1 :: c2 :: c3 :: t3 => isCont c1 && isCont c2 && isCont c3 && utf8Valid t3
      | _ => false
    else if b = 0xF4 then
      match t with
      | c1 :: c2 :: c3 :: t3 =>
        (0x80 ≤ c1 && c1 ≤ 0x8F) && isCont c2 && isCont c3 && utf8Valid t3
      | _ => false
    else false

/-- The filter-relevant slice of compiled `Options`:
`exclude_contains` with its compiled Aho-Corasick automaton
(`exclude_ac`, present when the pattern list is non-empty and the
automaton was built), and the compiled regex and glob set matchers as
abstract predicates over the byte string they receive. -/
structure FilterOptions where
  exclude_contains : List (List Nat)
  exclude_ac : Option (List (List Nat))
  exclude_regex_set : Option (List Nat → Bool)
  exclude_glob_set : Option (List Nat → Bool)

/-- The `exclude_ac` field produced by `compile_filters_in_place`:
`Some` automaton over the pattern list exactly when the list is
non-empty (assuming automaton construction succeeds, as it does for
ordinary patterns). -/
def compiledAc (contains : List (List Nat)) : Option (List (List Nat)) :=
  if contains.isEmpty then none else some contains

/-- Mirror of `name_contains_patterns_bytes` in `lib.rs`: scan the raw
name with every non-empty pattern. -/
def nameContainsPatternsBytes (name : List Nat) (pats : List (List Nat)) : Bool :=
  pats.any (fun p => !p.isEmpty && hasSeg p name)

/-- The `if let Some(ac) = &opt.exclude_ac` branch of `name_matches`:
`ac.is_match(name)`, semantically "some pattern occurs in the name". -/
def acMatches (ac : Option (List (List Nat))) (name : List Nat) : Bool :=
  match ac with
  | some pats => pats.any (fun p => hasSeg p name)
  | none => false

/-- The `if let Some(rs) = &opt.exclude_regex_set` branch of
`name_matches`: the regex set applied to the name when the name is
valid UTF-8. -/
def regexNameMatches (rset : Option (List Nat → Bool)) (name : List Nat) : Bool :=
  match rset with
  | some rs => if utf8Valid name then rs name else false
  | none => false

/-- Mirror of `name_matches` in `lib.rs`: Aho-Corasick over the raw
name bytes, then the regex set over the name when it is valid UTF-8,
then the direct substring scan. -/
def nameMatches (o : FilterOptions) (name : List Nat) : Bool :=
  acMatches o.exclude_ac name
  || regexNameMatches o.exclude_regex_set name
  || nameContainsPatternsBytes name o.exclude_contains

/-- Mirror of `should_fast_exclude` in `common_ops.rs`: true when no
substring pattern contains a path separator byte (47 is the slash, 92
the backslash). -/
def should_fast_exclude (o : FilterOptions) : Bool :=
  !(o.exclude_contains.any (fun s => s.any (fun c => c == 47 || c == 92)))

/-- Mirror of `should_exclude_legacy` in `filters.rs`: substring scan
of the full path text with every non-empty pattern. -/
def shouldExcludeLegacy (p : List Nat) (pats : List (List Nat)) : Bool :=
  pats.any (fun q => !q.isEmpty && hasSeg q p)

/-- The glob-set branch of `path_excluded`. -/
def globMatches (gset : Option (List Nat → Bool)) (p : List Nat) : Bool :=
  match gset with
  | some gs => gs p
  | none => false

/-- The regex-set branch of `path_excluded`, applied to the (lossily
decoded) path text. -/
def regexPathMatches (rset : Option (List Nat → Bool)) (p : List Nat) : Bool :=
  match rset with
  | some rs => rs p
  | none => false

/-- Mirror of `path_excluded` in `filters.rs`: glob set, then regex
set over the (lossily decoded) path text, then the legacy substring
scan. -/
def path_excluded (o : FilterOptions) (p : List Nat) : Bool :=
  globMatches o.exclude_glob_set p
  || regexPathMatches o.exclude_regex_set p
  || shouldExcludeLegacy p o.exclude_contains

/-- Joined path `dir/name` as a byte string. -/
def joinBytes (dir name : List Nat) : List Nat := dir ++ 47 :: name

/-- The per-entry exclusion decision of the Linux fast backend
(`platform/linux_x86_64_impl.rs`, the two checks at the top of the
entry loop): `name_matches` on the raw name, and, only when
`should_fast_exclude` is false, `path_excluded` on the joined child
path. -/
def entryExcluded (o : FilterOptions) (dir name : List Nat) : Bool :=
  nameMatches o name
  || (!should_fast_exclude o && path_excluded o (joinBytes dir name))

/-!
Bloom filter (`Bloom` in `hyperdu-core/src/lib.rs`).  The bit array is
modelled as a function from word index to the 64-bit word value; the
two atomic `fetch_or` operations become two sequential functional
updates.  `u128` arithmetic is `Nat` arithmetic reduced `% 2 ^ 128`
where the Rust type wraps or truncates.
-/

/-- Mirror of `usize::next_power_of_two`: the smallest power of two
that is at least the argument (1 for 0 and 1). -/
def nextPow2 (n : Nat) : Nat := 2 ^ Nat.clog 2 n

/-- Bit count allocated by `Bloom::with_bits`:
`n_bits.next_power_of_two().max(1 << 20)`. -/
def bloomBits (nBits : Nat) : Nat := max (nextPow2 nBits) (2 ^ 20)

/-- Word count allocated by `Bloom::with_bits`: `n.div_ceil(64)`. -/
def bloomWords (nBits : Nat) : Nat := (bloomBits nBits + 63) / 64

/-- The index mask stored by `Bloom::with_bits`: `n - 1`. -/
def bloomMask (nBits : Nat) : Nat := bloomBits nBits - 1

/-- The 128-bit key `((dev as u128) << 64) | (ino as u128)`. -/
def bloomKey (dev ino : Nat) : Nat := (dev <<< 64) ||| ino

/-- `u128` rotate-left by 17: `(x << 17 | x >> 111)` with the left
shift wrapping modulo `2 ^ 128`. -/
def bloomRot (x : Nat) : Nat := ((x <<< 17) % 2 ^ 128) ||| (x >>> 111)

/-- The mixed value `v` of `Bloom::h`:
`v = x ^ (x >> 33); v = v.wrapping_mul(0xff51afd7ed558ccd)`. -/
def bloomHv (x : Nat) : Nat :=
  ((x ^^^ (x >>> 33)) * 0xff51afd7ed558ccd) % 2 ^ 128

/-- The raw index of `Bloom::h`: `(v >> 6) as usize` (truncation of a
`u128` to 64 bits). -/
def bloomIdx (x : Nat) : Nat := (bloomHv x >>> 6) % 2 ^ 64

/-- The bit index selected by `Bloom::h`: `v as u32 & 63`; since 64
divides `2 ^ 32`, `(v mod 2 ^ 32) mod 64 = v mod 64`. -/
def bloomBitIdx (x : Nat) : Nat := bloomHv x % 64

/-- Word position of the first probe of `test_and_set`
(`i1 = h(key).0 & mask`, word `i1 / 64`). -/
def bloomW1 (nBits dev ino : Nat) : Nat :=
  (bloomIdx (bloomKey dev ino) &&& bloomMask nBits) / 64

/-- Bit mask of the first probe (`1u64 << (v as u32 & 63)`). -/
def bloomB1 (dev ino : Nat) : Nat := 2 ^ bloomBitIdx (bloomKey dev ino)

/-- Word position of the second probe, derived from
`key.rotate_left(17)`. -/
def bloomW2 (nBits dev ino : Nat) : Nat :=
  (bloomIdx (bloomRot (bloomKey dev ino)) &&& bloomMask nBits) / 64

/-- Bit mask of the second probe. -/
def bloomB2 (dev ino : Nat) : Nat :=
  2 ^ bloomBitIdx (bloomRot (bloomKey dev ino))

/-- Mirror of `Bloom::test_and_set`: OR both probe bits into their
words (two sequential `fetch_or`) and report whether both bits were
set in the word value each `fetch_or` observed. -/
def bloomTestAndSet (nBits : Nat) (σ : Nat → Nat) (dev ino : Nat) :
    Bool × (Nat → Nat) :=
  let w1 := bloomW1 nBits dev ino
  let b1 := bloomB1 dev ino
  let w2 := bloomW2 nBits dev ino
  let b2 := bloomB2 dev ino
  let old1 := σ w1
  let s1 : Nat → Nat := fun w => if w = w1 then old1 ||| b1 else σ w
  let old2 := s1 w2
  let s2 : Nat → Nat := fun w => if w = w2 then old2 ||| b2 else s1 w
  (decide (old1 &&& b1 ≠ 0) && decide (old2 &&& b2 ≠ 0), s2)

/-!
Loop detection (`check_visited_directory` in
`hyperdu-core/src/common_ops.rs`).  The `DashMap` visited set is
modelled as a list of `(dev, ino)` keys; `insert` reports whether the
key pre-existed.  The whole mutable state (Bloom words and visited
set) is passed and returned explicitly.
-/

/-- State of one `check_visited_directory` call: the optional Bloom
word array and the optional exact visited set. -/
structure VisitState where
  bloom : Option (Nat → Nat)
  vset : Option (List (Nat × Nat))

/-- Mirror of `check_visited_directory`: returns whether the directory
should be skipped, together with the updated state.  With
`follow_links` false, or with no visited set configured, it returns
false without touching any state.  Otherwise the Bloom filter (when
present) is consulted first via `test_and_set`, and only on a positive
Bloom answer is the exact set probed and inserted. -/
def check_visited_directory (followLinks : Bool) (nBits : Nat)
    (st : VisitState) (dev ino : Nat) : Bool × VisitState :=
  if !followLinks then (false, st)
  else
    match st.vset with
    | none => (false, st)
    | some vs =>
      match st.bloom with
      | some bf =>
        let r := bloomTestAndSet nBits bf dev ino
        if !r.1 then (false, ⟨some r.2, some vs⟩)
        else
          let pre := (dev, ino) ∈ vs
          (pre, ⟨some r.2, some (if pre then vs else (dev, ino) :: vs)⟩)
      | none =>
        let pre := (dev, ino) ∈ vs
        (pre, ⟨none, some (if pre then vs else (dev, ino) :: vs)⟩)

/-!
Error accounting (`hyperdu-core/src/error_handling.rs`).  The `path`
payloads of `ScanError` never influence `recovery_action` and are
omitted; `io::ErrorKind` is modelled by the kinds the source
distinguishes plus a catch-all.
-/

/-- The `io::ErrorKind` values distinguished by `recovery_action`,
with `other` standing for every remaining kind. -/
inductive IoKind where
  | notFound : IoKind
  | permissionDenied : IoKind
  | interrupted : IoKind
  | wouldBlock : IoKind
  | other : IoKind
deriving DecidableEq

/-- Mirror of `enum ScanError` (path payloads dropped; `IoError`
keeps its source kind, `SystemCall` its errno). -/
inductive ScanError where
  | ioError : IoKind → ScanError
  | permissionDenied : ScanError
  | invalidPath : ScanError
  | systemCall : Int → ScanError
deriving DecidableEq

/-- Mirror of `enum RecoveryAction`. -/
inductive RecoveryAction where
  | skipEntry : RecoveryAction
  | skipDirectory : RecoveryAction
  | retry : RecoveryAction
  | abort : RecoveryAction
deriving DecidableEq

/-- Mirror of `ScanError::recovery_action`. -/
def recovery_action : ScanError → RecoveryAction
  | .permissionDenied => .skipEntry
  | .invalidPath => .skipEntry
  | .ioError k =>
    match k with
    | .notFound => .skipEntry
    | .permissionDenied => .skipEntry
    | .interrupted => .retry
    | .wouldBlock => .retry
    | .other => .skipEntry
  | .systemCall errno =>
    if errno = 13 ∨ errno = 1 then .skipEntry
    else if errno = 2 ∨ errno = 20 then .skipEntry
    else if errno = 16 ∨ errno = 11 then .retry
    else .skipEntry

/-- Mirror of `ScanError::is_recoverable`:
`matches!(action, SkipEntry | SkipDirectory | Retry)`. -/
def is_recoverable (e : ScanError) : Bool :=
  match recovery_action e with
  | .skipEntry => true
  | .skipDirectory => true
  | .retry => true
  | .abort => false

/-!
Adaptive tuner (`hyperdu-core/src/tuning.rs`), the `uring_batch`
adjustment of one tick.  `dfail` is the delta of the SQE failure
counter since the previous tick.  The floating-point condition
`avg_wait_ms > 2.0` (with `avg_wait_ms = dwait / dcqe / 1e6` when
`dcqe > 0` and `0.0` otherwise) is abstracted into the boolean input
`avgWaitHigh`; the claim under check concerns the integer update rule,
not float rounding.
-/

/-- One `uring_batch` adjustment step:
`batch.saturating_sub(64).max(64)` on failures, otherwise
`batch.saturating_sub(32).max(64)` on high submit wait, otherwise
`(batch + 32).min(4096)`.  `Nat` subtraction is saturating, matching
`saturating_sub`. -/
def uringBatchStep (batch dfail : Nat) (avgWaitHigh : Bool) : Nat :=
  if 0 < dfail then max (batch - 64) 64
  else if avgWaitHigh then max (batch - 32) 64
  else min (batch + 32) 4096

/-!
Work-stealing job fetch (`scan_directory_with` in
`hyperdu-core/src/lib.rs`).  One fetch pass of a worker is a pure
function of the observed results: its own `pop`, the `steal` results
of the two injectors, and the `steal` results of one round over the
stealers (already rotated to the worker's starting offset).  The
worker exits its loop exactly when this function returns `none`.
-/

/-- A scheduler job (`struct Job`). -/
structure JobM where
  dir : RPath
  depth : Nat
  resume : Option Nat
deriving DecidableEq

/-- Result of `crossbeam_deque::Steal`. -/
inductive StealR where
  | success : JobM → StealR
  | empty : StealR
  | retry : StealR
deriving DecidableEq

/-- The steal round over the other workers: take the first
`Success`, treating both `Empty` and `Retry` as "keep looking";
returns `none` when no stealer yielded a job. -/
def firstSuccess : List StealR → Option JobM
  | [] => none
  | .success j :: _ => some j
  | .empty :: t => firstSuccess t
  | .retry :: t => firstSuccess t

/-- One fetch pass of the worker loop:
`local.pop().or_else(|| match high.steal() … )` with the nested
matches of the source.  `Steal::Retry` from the high or the normal
injector falls through to `None`. -/
def fetchJob (pop : Option JobM) (high normal : StealR)
    (stealers : List StealR) : Option JobM :=
  match pop with
  | some j => some j
  | none =>
    match high with
    | .success j => some j
    | .retry => none
    | .empty =>
      match normal with
      | .success j => some j
      | .retry => none
      | .empty => firstSuccess stealers

/-!
Options (`Options::default` in `lib.rs` and `OptionsBuilder::build` in
`options.rs`), restricted to the fields the claims touch.  Environment
variables are taken as unset, so every `unwrap_or` default applies;
`available_parallelism` is the parameter `hw`.
-/

/-- The claim-relevant fields of `Options` (atomics carried as plain
values). -/
structure OptionsM where
  threads : Nat
  active_threads : Nat
  uring_batch : Nat
  follow_links : Bool
deriving DecidableEq

/-- Mirror of `Options::default()` for the modelled fields:
`threads = available_parallelism`, `active_threads =
AtomicUsize::new(0)`, `uring_batch = 128`, `follow_links = false`. -/
def OptionsM.default (hw : Nat) : OptionsM :=
  { threads := hw
    active_threads := 0
    uring_batch := 128
    follow_links := false }

/-- The claim-relevant fields of `OptionsBuilder`. -/
structure BuilderM where
  threads : Option Nat
  follow_links : Option Bool
deriving DecidableEq

/-- Mirror of `OptionsBuilder::build()` for the modelled fields:
start from the default, override provided fields, then store
`threads.max(1)` into `active_threads`. -/
def BuilderM.build (b : BuilderM) (hw : Nat) : OptionsM :=
  let base := OptionsM.default hw
  let t := b.threads.getD base.threads
  { threads := t
    active_threads := max t 1
    uring_batch := base.uring_batch
    follow_links := b.follow_links.getD base.follow_links }

/-- The worker throttle check of `scan_directory_with`: worker `i`
sleeps (5 ms) and retries instead of fetching a job exactly when
`i >= active_threads`. -/
def workerThrottled (i act : Nat) : Bool := decide (act ≤ i)

/-!
Orchestrator entry (`scan_directory_with` root validation in `lib.rs`
and the open-failure path of `process_dir` in
`platform/linux_x86_64_impl.rs`).  The filesystem interaction is
reduced to the two observable outcomes the claim speaks about: does
the root path exist, and does opening the root directory succeed.
`onOpen` is the map a successful enumeration of the tree would
produce.  The model returns the rolled-up map together with the error
counter value.
-/

/-- Mirror of the open-failure path of `process_dir`: on `fd < 0` the
error is recorded (`record_error` increments the counter) and the
function simply returns, leaving the local map untouched — the root
job produces an empty map and no failure is propagated. -/
def processRootModel (openOk : Bool) (onOpen : SMap) : SMap × Nat :=
  if openOk then (onOpen, 0) else ([], 1)

/-- Mirror of the `scan_directory_with` orchestration shape: an error
is returned exactly when the root does not exist; otherwise the worker
output is merged and rolled up and returned as `Ok` together with the
recorded error count. -/
def scanDirectoryModel (rootExists openOk : Bool) (onOpen : SMap) :
    Except Unit (SMap × Nat) :=
  if !rootExists then .error ()
  else
    let r := processRootModel openOk onOpen
    .ok (rollup_child_to_parent r.1, r.2)

/-! ### Basic algebra of statistics -/

theorem stat_add_def (a b : Stat) :
    a + b = ⟨a.logical + b.logical, a.physical + b.physical, a.files + b.files⟩ := rfl

theorem stat_add_zero (a : Stat) : a + Stat.zero = a := by
  cases a
  simp [stat_add_def, Stat.zero]

theorem stat_zero_add (a : Stat) : Stat.zero + a = a := by
  cases a
  simp [stat_add_def, Stat.zero]

theorem stat_add_assoc (a b c : Stat) : a + b + c = a + (b + c) := by
  cases a; cases b; cases c
  simp [stat_add_def, Nat.add_assoc]

theorem stat_add_comm (a b : Stat) : a + b = b + a := by
  cases a; cases b
  simp [stat_add_def, Nat.add_comm]

theorem statLe_refl (a : Stat) : statLe a a := ⟨le_refl _, le_refl _, le_refl _⟩

theorem statLe_trans {a b c : Stat} (h1 : statLe a b) (h2 : statLe b c) :
    statLe a c :=
  ⟨le_trans h1.1 h2.1, le_trans h1.2.1 h2.2.1, le_trans h1.2.2 h2.2.2⟩

theorem statLe_add_left (a b : Stat) : statLe b (a + b) := by
  cases a; cases b
  exact ⟨Nat.le_add_left _ _, Nat.le_add_left _ _, Nat.le_add_left _ _⟩

theorem statLe_add_right (a b : Stat) : statLe a (a + b) := by
  cases a; cases b
  exact ⟨Nat.le_add_right _ _, Nat.le_add_right _ _, Nat.le_add_right _ _⟩

theorem statLe_add_both {a b c d : Stat} (h1 : statLe a c) (h2 : statLe b d) :
    statLe (a + b) (c + d) := by
  obtain ⟨x1, x2, x3⟩ := h1
  obtain ⟨y1, y2, y3⟩ := h2
  exact ⟨Nat.add_le_add x1 y1, Nat.add_le_add x2 y2, Nat.add_le_add x3 y3⟩

theorem sumStats_nil : sumStats [] = Stat.zero := rfl

theorem sumStats_cons (a : Stat) (l : List Stat) :
    sumStats (a :: l) = a + sumStats l := rfl

theorem mem_statLe_sumStats {a : Stat} {l : List Stat} (h : a ∈ l) :
    statLe a (sumStats l) := by
  induction l with
  | nil => cases h
  | cons b t ih =>
    rcases List.mem_cons.mp h with rfl | hm
    · exact statLe_add_right _ _
    · exact statLe_trans (ih hm) (statLe_add_left _ _)

theorem sumStats_map_add {α : Type} (l : List α) (f g : α → Stat) :
    sumStats (l.map (fun c => f c + g c)) =
      sumStats (l.map f) + sumStats (l.map g) := by
  induction l with
  | nil => simp [sumStats_nil, stat_add_zero]
  | cons b t ih =>
    simp only [List.map_cons, sumStats_cons, ih]
    rw [stat_add_assoc, stat_add_assoc]
    congr 1
    rw [← stat_add_assoc, ← stat_add_assoc, stat_add_comm (g b)]

theorem sumStats_map_zero {α : Type} (l : List α) :
    sumStats (l.map (fun _ => Stat.zero)) = Stat.zero := by
  induction l with
  | nil => rfl
  | cons b t ih => simp only [List.map_cons, sumStats_cons, ih, stat_add_zero]

/-! ### Claim C1 — active-thread range and the worker throttle -/

/-- C1: the claim states that every `Options` a scan runs under has
`active_threads ∈ [1, threads]`, with both `Options::default()` and
`OptionsBuilder::build()` establishing the range, so that worker 0
always fetches a job.  The code refutes the `Options::default()`
half: it stores 0 into `active_threads`, and then the throttle check
`i >= active_threads` makes every worker, including worker 0, sleep
instead of fetching.  `OptionsBuilder::build()` does store
`threads.max(1)`, which is at least 1. -/
theorem c1_default_active_threads_zero :
    (∀ hw, (OptionsM.default hw).active_threads = 0) ∧
    (∀ hw, workerThrottled 0 (OptionsM.default hw).active_threads = true) ∧
    (∀ b hw, (BuilderM.build b hw).active_threads
      = max (BuilderM.build b hw).threads 1) ∧
    (∀ b hw, 1 ≤ (BuilderM.build b hw).active_threads ∧
      (BuilderM.build b hw).active_threads ≤ max (BuilderM.build b hw).threads 1) :=
  ⟨fun _ => rfl, fun _ => rfl, fun _ _ => rfl,
   fun _ _ => ⟨Nat.le_max_right _ 1, Nat.le_refl _⟩⟩

/-! ### Claim C3 — worker exit on a spurious `Retry` -/

/-- C3: the claim states that a worker exits only when pop, both
injectors and every stealer all report empty in one pass, and that
`Retry` is non-terminal.  The code refutes it: in the fetch match,
`Steal::Retry` from the high injector (or from the normal injector)
produces `None` and the worker breaks out of its loop — here even
though the normal injector holds a job. -/
theorem c3_retry_exits :
    fetchJob none StealR.retry (StealR.success ⟨[PComp.rootDir], 1, none⟩) []
      = none ∧
    fetchJob none StealR.empty StealR.retry
      [StealR.success ⟨[PComp.rootDir], 1, none⟩] = none :=
  ⟨rfl, rfl⟩

/-! ### Claim C5 — error recovery mapping -/

/-- C5 counterexample: `SystemCall` with errno 4 (`EINTR`, the
interrupted-system-call errno) maps to `SkipEntry`, not to `Retry` as
the claim's "interrupted … → Retry" requires; conversely errno 16
(`EBUSY`), which is neither interrupted nor would-block, maps to
`Retry`, not to the claimed `SkipEntry` default. -/
theorem c5_counterexample :
    recovery_action (ScanError.systemCall 4) = RecoveryAction.skipEntry ∧
    recovery_action (ScanError.systemCall 16) = RecoveryAction.retry ∧
    recovery_action (ScanError.ioError IoKind.interrupted)
      = RecoveryAction.retry := by
  refine ⟨by decide, by decide, rfl⟩

/-- C5 amended: `recovery_action` maps the `Interrupted` and
`WouldBlock` io-error kinds and exactly the raw errnos 16 (`EBUSY`)
and 11 (`EAGAIN`) to `Retry`, and everything else — including the raw
errno 4 (`EINTR`) — to `SkipEntry`; it never returns `Abort` (nor
`SkipDirectory`), so `is_recoverable` holds for every error. -/
theorem c5_amended (e : ScanError) :
    is_recoverable e = true ∧
    recovery_action e ≠ RecoveryAction.abort ∧
    (recovery_action e = RecoveryAction.retry ∨
      recovery_action e = RecoveryAction.skipEntry) ∧
    (recovery_action e = RecoveryAction.retry ↔
      e = ScanError.ioError IoKind.interrupted ∨
      e = ScanError.ioError IoKind.wouldBlock ∨
      e = ScanError.systemCall 16 ∨ e = ScanError.systemCall 11) := by
  cases e with
  | ioError k => cases k <;> simp [is_recoverable, recovery_action]
  | permissionDenied => simp [is_recoverable, recovery_action]
  | invalidPath => simp [is_recoverable, recovery_action]
  | systemCall n =>
    simp only [is_recoverable, recovery_action]
    by_cases h1 : n = 13 ∨ n = 1
    · simp [h1] <;> omega
    · by_cases h2 : n = 2 ∨ n = 20
      · simp [h1, h2] <;> omega
      · by_cases h3 : n = 16 ∨ n = 11
        · simp [h1, h2, h3] <;> omega
        · simp [h1, h2, h3] <;> omega

/-! ### Claim C7 — root validation and root-open failure -/

/-- C7 counterexample: with an existing root whose directory open
fails, the scan still returns `Ok` (with an empty map and one recorded
error) — the claim said a root-open failure makes the call return an
error. -/
theorem c7_counterexample :
    scanDirectoryModel true false [([PComp.rootDir], ⟨1, 1, 1⟩)]
      = Except.ok ([], 1) ∧
    scanDirectoryModel false true [([PComp.rootDir], ⟨1, 1, 1⟩)]
      = Except.error () := ⟨rfl, rfl⟩

/-- C7 amended: `scan_directory` returns an error exactly when the
root path does not exist; a failure to open the root directory for
enumeration is recorded through the error counter but the call still
returns `Ok` (over this model, with an empty, rolled-up map). -/
theorem c7_amended (rootExists openOk : Bool) (m : SMap) :
    ((scanDirectoryModel rootExists openOk m).isOk = true ↔ rootExists = true) ∧
    (rootExists = true → openOk = true →
      scanDirectoryModel rootExists openOk m
        = Except.ok (rollup_child_to_parent m, 0)) ∧
    (rootExists = true → openOk = false →
      scanDirectoryModel rootExists openOk m = Except.ok ([], 1)) := by
  cases rootExists <;> cases openOk <;>
    simp [scanDirectoryModel, processRootModel, Except.isOk, Except.toBool] <;>
    rfl

/-- C7 witness: the amended statement evaluated at an existing root
whose open fails. -/
theorem c7_amended_witness :
    scanDirectoryModel true false [([PComp.rootDir], ⟨2, 2, 2⟩)]
      = Except.ok ([], 1) :=
  (c7_amended true false [([PComp.rootDir], ⟨2, 2, 2⟩)]).2.2 rfl rfl

/-! ### Claim C8 — `uring_batch` adjustment -/

/-- C8: on each tick `uring_batch` decreases by 64 (floored at 64) on
any SQE push failure, otherwise decreases by 32 (floored at 64) when
the average submit wait per completed CQE exceeds 2 ms, otherwise
increases by 32 (capped at 4096); starting inside `[64, 4096]` it
stays inside `[64, 4096]`. -/
theorem c8_uring_batch (batch dfail : Nat) (avgWaitHigh : Bool)
    (h1 : 64 ≤ batch) (h2 : batch ≤ 4096) :
    (0 < dfail →
      uringBatchStep batch dfail avgWaitHigh = max (batch - 64) 64) ∧
    (dfail = 0 → avgWaitHigh = true →
      uringBatchStep batch dfail avgWaitHigh = max (batch - 32) 64) ∧
    (dfail = 0 → avgWaitHigh = false →
      uringBatchStep batch dfail avgWaitHigh = min (batch + 32) 4096) ∧
    64 ≤ uringBatchStep batch dfail avgWaitHigh ∧
    uringBatchStep batch dfail avgWaitHigh ≤ 4096 := by
  rcases Nat.eq_zero_or_pos dfail with hd | hd <;>
    cases avgWaitHigh <;> simp [uringBatchStep, hd] <;> omega

/-- C8 witness: the step evaluated at batch 128 with one SQE failure
since the previous tick. -/
theorem c8_uring_batch_witness :
    64 ≤ (128 : Nat) ∧ (128 : Nat) ≤ 4096 ∧
    64 ≤ uringBatchStep 128 1 true ∧ uringBatchStep 128 1 true ≤ 4096 :=
  ⟨by decide, by decide,
   (c8_uring_batch 128 1 true (by decide) (by decide)).2.2.2.1,
   (c8_uring_batch 128 1 true (by decide) (by decide)).2.2.2.2⟩

/-! ### Claim C2 — filter evaluation -/

theorem sep_exists_iff (o : FilterOptions) :
    should_fast_exclude o = false ↔
      ∃ p ∈ o.exclude_contains, ∃ c ∈ p, c = 47 ∨ c = 92 := by
  simp [should_fast_exclude, List.any_eq_true]

theorem acMatches_compiled_iff (contains : List (List Nat)) (name : List Nat) :
    acMatches (compiledAc contains) name = true ↔
      ∃ p ∈ contains, hasSeg p name = true := by
  unfold acMatches compiledAc
  by_cases hc : contains.isEmpty
  · have hce : contains = [] := by
      cases contains
      · rfl
      · simp at hc
    rw [if_pos hc, hce]
    simp
  · rw [if_neg hc]
    simp [List.any_eq_true]

theorem regexNameMatches_iff (rset : Option (List Nat → Bool))
    (name : List Nat) :
    regexNameMatches rset name = true ↔
      ∃ rs, rset = some rs ∧ utf8Valid name = true ∧ rs name = true := by
  cases rset <;> by_cases hu : utf8Valid name <;>
    simp [regexNameMatches, hu]

theorem nameContainsPatternsBytes_iff (name : List Nat)
    (pats : List (List Nat)) :
    nameContainsPatternsBytes name pats = true ↔
      ∃ p ∈ pats, p ≠ [] ∧ hasSeg p name = true := by
  unfold nameContainsPatternsBytes
  simp [List.any_eq_true]

theorem nameMatches_iff (o : FilterOptions) (name : List Nat)
    (hac : o.exclude_ac = compiledAc o.exclude_contains) :
    nameMatches o name = true ↔
      (∃ p ∈ o.exclude_contains, hasSeg p name = true) ∨
      (∃ rs, o.exclude_regex_set = some rs ∧ utf8Valid name = true ∧
        rs name = true) := by
  unfold nameMatches
  rw [hac, Bool.or_eq_true, Bool.or_eq_true, acMatches_compiled_iff,
    regexNameMatches_iff, nameContainsPatternsBytes_iff]
  constructor
  · rintro ((h | h) | ⟨p, hp, _, hs⟩)
    · exact Or.inl h
    · exact Or.inr h
    · exact Or.inl ⟨p, hp, hs⟩
  · rintro (h | h)
    · exact Or.inl (Or.inl h)
    · exact Or.inl (Or.inr h)

theorem globMatches_iff (gset : Option (List Nat → Bool)) (p : List Nat) :
    globMatches gset p = true ↔ ∃ gs, gset = some gs ∧ gs p = true := by
  cases gset <;> simp [globMatches]

theorem regexPathMatches_iff (rset : Option (List Nat → Bool)) (p : List Nat) :
    regexPathMatches rset p = true ↔ ∃ rs, rset = some rs ∧ rs p = true := by
  cases rset <;> simp [regexPathMatches]

theorem shouldExcludeLegacy_iff (pth : List Nat) (pats : List (List Nat)) :
    shouldExcludeLegacy pth pats = true ↔
      ∃ p ∈ pats, p ≠ [] ∧ hasSeg p pth = true := by
  unfold shouldExcludeLegacy
  simp [List.any_eq_true]

theorem path_excluded_iff (o : FilterOptions) (pth : List Nat) :
    path_excluded o pth = true ↔
      (∃ gs, o.exclude_glob_set = some gs ∧ gs pth = true) ∨
      (∃ rs, o.exclude_regex_set = some rs ∧ rs pth = true) ∨
      (∃ p ∈ o.exclude_contains, p ≠ [] ∧ hasSeg p pth = true) := by
  unfold path_excluded
  rw [Bool.or_eq_true, Bool.or_eq_true, globMatches_iff, regexPathMatches_iff,
    shouldExcludeLegacy_iff, or_assoc]

/-- C2 counterexample: with no substring patterns and a glob set that
matches the joined path of the entry, the backend does not exclude the
entry (since `should_fast_exclude` is true the path layers are never
evaluated), even though `path_excluded` holds on the full path — the
claim said a glob-set match on the full path excludes the entry
regardless of the substring patterns.  The bytes spell the directory
`/r/d` and the name `b`. -/
theorem c2_counterexample :
    entryExcluded
      ⟨[], none, none, some (fun p => p == [47, 114, 47, 100, 47, 98])⟩
      [47, 114, 47, 100] [98] = false ∧
    path_excluded
      ⟨[], none, none, some (fun p => p == [47, 114, 47, 100, 47, 98])⟩
      (joinBytes [47, 114, 47, 100] [98]) = true := by
  exact ⟨rfl, rfl⟩

/-- C2 amended: an entry is excluded iff its raw name matches one of
the name layers — a substring pattern occurring in the name bytes
(the Aho-Corasick automaton and the direct byte scan have this same
semantics), or the regex set matching the name itself when the name is
valid UTF-8 — or some substring pattern contains a path separator and
the joined path matches `path_excluded` (glob set, regex set over the
path text, or a non-empty substring pattern occurring in the path
text).  In particular the glob and path-regex layers are evaluated
only when a substring pattern contains a separator, and the regex set
is additionally applied to the bare name bytes. -/
theorem c2_amended (o : FilterOptions) (dir name : List Nat)
    (hac : o.exclude_ac = compiledAc o.exclude_contains) :
    entryExcluded o dir name = true ↔
      (∃ p ∈ o.exclude_contains, hasSeg p name = true) ∨
      (∃ rs, o.exclude_regex_set = some rs ∧ utf8Valid name = true ∧
        rs name = true) ∨
      ((∃ p ∈ o.exclude_contains, ∃ c ∈ p, c = 47 ∨ c = 92) ∧
        ((∃ gs, o.exclude_glob_set = some gs ∧
            gs (joinBytes dir name) = true) ∨
         (∃ rs, o.exclude_regex_set = some rs ∧
            rs (joinBytes dir name) = true) ∨
         (∃ p ∈ o.exclude_contains, p ≠ [] ∧
            hasSeg p (joinBytes dir name) = true))) := by
  unfold entryExcluded
  rw [Bool.or_eq_true, Bool.and_eq_true, Bool.not_eq_true',
    nameMatches_iff o name hac, sep_exists_iff, path_excluded_iff, or_assoc]

/-- C2 amended, witness: a single separator-free substring pattern
(the byte 97) matching the entry name. -/
theorem c2_amended_witness :
    entryExcluded ⟨[[97]], some [[97]], none, none⟩ [47, 114] [97] = true ↔
      (∃ p ∈ [[97]], hasSeg p [97] = true) ∨
      (∃ rs, (none : Option (List Nat → Bool)) = some rs ∧
        utf8Valid [97] = true ∧ rs [97] = true) ∨
      ((∃ p ∈ [[97]], ∃ c ∈ p, c = 47 ∨ c = 92) ∧
        ((∃ gs, (none : Option (List Nat → Bool)) = some gs ∧
            gs (joinBytes [47, 114] [97]) = true) ∨
         (∃ rs, (none : Option (List Nat → Bool)) = some rs ∧
            rs (joinBytes [47, 114] [97]) = true) ∨
         (∃ p ∈ [[97]], p ≠ [] ∧
            hasSeg p (joinBytes [47, 114] [97]) = true))) :=
  c2_amended ⟨[[97]], some [[97]], none, none⟩ [47, 114] [97] rfl

/-! ### Bloom filter lemmas (claims C6 and C9) -/

theorem and_pow_ne_zero_iff (x k : Nat) :
    x &&& 2 ^ k ≠ 0 ↔ x.testBit k = true := by
  rw [Nat.and_two_pow]
  cases h : x.testBit k
  · simp
  · have h2 : (2 : Nat) ^ k ≠ 0 :=
      Nat.pos_iff_ne_zero.mp (Nat.pos_pow_of_pos k (by omega))
    simp [h2]

theorem testBit_pow_iff (a k : Nat) : (2 ^ a).testBit k = true ↔ k = a := by
  by_cases h : a = k
  · subst h
    simp [Nat.testBit_two_pow_self]
  · rw [Nat.testBit_two_pow_of_ne h]
    simp only [Bool.false_eq_true, false_iff]
    exact fun hk => h hk.symm

theorem bloomTAS_fst (nBits : Nat) (σ : Nat → Nat) (dev ino : Nat) :
    (bloomTestAndSet nBits σ dev ino).1 =
      (decide (σ (bloomW1 nBits dev ino) &&& bloomB1 dev ino ≠ 0) &&
       decide ((if bloomW2 nBits dev ino = bloomW1 nBits dev ino then
           σ (bloomW1 nBits dev ino) ||| bloomB1 dev ino
         else σ (bloomW2 nBits dev ino)) &&& bloomB2 dev ino ≠ 0)) := rfl

set_option maxHeartbeats 1600000 in
theorem bloomTAS_snd (nBits : Nat) (σ : Nat → Nat) (dev ino : Nat) :
    (bloomTestAndSet nBits σ dev ino).2 = fun w =>
      if w = bloomW2 nBits dev ino then
        (if bloomW2 nBits dev ino = bloomW1 nBits dev ino then
           σ (bloomW1 nBits dev ino) ||| bloomB1 dev ino
         else σ (bloomW2 nBits dev ino)) ||| bloomB2 dev ino
      else if w = bloomW1 nBits dev ino then
        σ (bloomW1 nBits dev ino) ||| bloomB1 dev ino
      else σ w := rfl

theorem bloomTAS_snd_app (nBits : Nat) (σ : Nat → Nat) (dev ino w : Nat) :
    (bloomTestAndSet nBits σ dev ino).2 w =
      if w = bloomW2 nBits dev ino then
        (if bloomW2 nBits dev ino = bloomW1 nBits dev ino then
           σ (bloomW1 nBits dev ino) ||| bloomB1 dev ino
         else σ (bloomW2 nBits dev ino)) ||| bloomB2 dev ino
      else if w = bloomW1 nBits dev ino then
        σ (bloomW1 nBits dev ino) ||| bloomB1 dev ino
      else σ w := rfl

theorem bloomTAS_testBit (nBits : Nat) (σ : Nat → Nat) (dev ino w k : Nat) :
    (((bloomTestAndSet nBits σ dev ino).2 w).testBit k = true) ↔
      ((σ w).testBit k = true ∨
       (w = bloomW1 nBits dev ino ∧ k = bloomBitIdx (bloomKey dev ino)) ∨
       (w = bloomW2 nBits dev ino ∧
        k = bloomBitIdx (bloomRot (bloomKey dev ino)))) := by
  rw [bloomTAS_snd_app]
  have hb1 : bloomB1 dev ino = 2 ^ bloomBitIdx (bloomKey dev ino) := rfl
  have hb2 : bloomB2 dev ino = 2 ^ bloomBitIdx (bloomRot (bloomKey dev ino)) :=
    rfl
  rw [hb1, hb2]
  set W1 := bloomW1 nBits dev ino
  set W2 := bloomW2 nBits dev ino
  set A1 := bloomBitIdx (bloomKey dev ino)
  set A2 := bloomBitIdx (bloomRot (bloomKey dev ino))
  clear_value W1 W2 A1 A2
  by_cases hw2 : w = W2
  · rw [if_pos hw2]
    by_cases h21 : W2 = W1
    · rw [if_pos h21, Nat.testBit_lor, Nat.testBit_lor]
      simp [hw2, h21, testBit_pow_iff]
      try tauto
    · rw [if_neg h21, Nat.testBit_lor]
      simp [hw2, h21, testBit_pow_iff]
      try tauto
  · rw [if_neg hw2]
    by_cases hw1 : w = W1
    · rw [if_pos hw1, Nat.testBit_lor]
      have hW : W1 ≠ W2 := fun h => hw2 (hw1.trans h)
      simp [hw1, hw2, hW, testBit_pow_iff]
      try tauto
    · rw [if_neg hw1]
      simp [hw1, hw2]

theorem bloomTAS_ret (nBits : Nat) (σ : Nat → Nat) (dev ino : Nat) :
    (bloomTestAndSet nBits σ dev ino).1 = true ↔
      ((σ (bloomW1 nBits dev ino)).testBit
          (bloomBitIdx (bloomKey dev ino)) = true ∧
       (σ (bloomW2 nBits dev ino)).testBit
          (bloomBitIdx (bloomRot (bloomKey dev ino))) = true) := by
  rw [bloomTAS_fst, Bool.and_eq_true, decide_eq_true_iff, decide_eq_true_iff]
  unfold bloomB1 bloomB2
  rw [and_pow_ne_zero_iff, and_pow_ne_zero_iff]
  by_cases h21 : bloomW2 nBits dev ino = bloomW1 nBits dev ino
  · rw [h21, if_pos rfl, Nat.testBit_lor]
    by_cases ha : bloomBitIdx (bloomRot (bloomKey dev ino))
        = bloomBitIdx (bloomKey dev ino)
    · rw [ha]
      simp [testBit_pow_iff]
    · have : (2 ^ bloomBitIdx (bloomKey dev ino)).testBit
          (bloomBitIdx (bloomRot (bloomKey dev ino))) = false := by
        rw [Nat.testBit_two_pow_of_ne (fun hh => ha hh.symm)]
      simp [this]
  · rw [if_neg h21]

theorem pow_max_pow (a b : Nat) : max (2 ^ a) (2 ^ b) = 2 ^ max a b := by
  rcases Nat.le_total a b with h | h
  · rw [Nat.max_eq_right h,
      Nat.max_eq_right (Nat.pow_le_pow_right (by omega) h)]
  · rw [Nat.max_eq_left h,
      Nat.max_eq_left (Nat.pow_le_pow_right (by omega) h)]

theorem bloomBits_eq_pow (n : Nat) :
    bloomBits n = 2 ^ max (Nat.clog 2 n) 20 := by
  unfold bloomBits nextPow2
  exact pow_max_pow _ _

theorem bloomBits_ge (n : Nat) : 2 ^ 20 ≤ bloomBits n := by
  rw [bloomBits_eq_pow]
  exact Nat.pow_le_pow_right (by omega) (Nat.le_max_right _ _)

theorem bloomBits_sixtyfour (n : Nat) :
    ∃ t, 0 < t ∧ bloomBits n = 64 * t := by
  rw [bloomBits_eq_pow]
  refine ⟨2 ^ (max (Nat.clog 2 n) 20 - 6), Nat.pos_pow_of_pos _ (by omega), ?_⟩
  have h6 : 6 ≤ max (Nat.clog 2 n) 20 := by
    have := Nat.le_max_right (Nat.clog 2 n) 20
    omega
  have : (64 : Nat) = 2 ^ 6 := by norm_num
  rw [this, ← Nat.pow_add]
  congr 1
  omega

theorem bloomWords_bound (n i : Nat) :
    (i &&& bloomMask n) / 64 < bloomWords n := by
  obtain ⟨t, ht, hbits⟩ := bloomBits_sixtyfour n
  have hmask : i &&& bloomMask n ≤ bloomMask n := Nat.and_le_right
  have hmdef : bloomMask n = bloomBits n - 1 := rfl
  have hpos : 0 < bloomBits n :=
    lt_of_lt_of_le (Nat.pos_pow_of_pos 20 (by omega)) (bloomBits_ge n)
  have hlt : i &&& bloomMask n < bloomBits n := by omega
  have hwords : bloomWords n = t := by
    unfold bloomWords
    rw [hbits, Nat.mul_add_div (by omega)]
    norm_num
  rw [hwords]
  rw [Nat.div_lt_iff_lt_mul (by omega : (0:Nat) < 64)]
  omega

/-- C6: `Bloom::with_bits` allocates a bit array whose size is a
power of two of at least `2 ^ 20` bits, and both probe words lie
inside the allocated word array; `test_and_set` derives its two bit
positions deterministically from the 128-bit combination of
`(dev, ino)`, sets both bits, and returns true exactly when both bits
were already set in the state the call observed; consequently a
second call with the same `(dev, ino)` always returns true. -/
theorem c6_bloom :
    (∀ n, ∃ k, bloomBits n = 2 ^ k ∧ 2 ^ 20 ≤ bloomBits n) ∧
    (∀ n dev ino, bloomW1 n dev ino < bloomWords n ∧
      bloomW2 n dev ino < bloomWords n) ∧
    (∀ n σ dev ino,
      ((bloomTestAndSet n σ dev ino).2 (bloomW1 n dev ino)).testBit
          (bloomBitIdx (bloomKey dev ino)) = true ∧
      ((bloomTestAndSet n σ dev ino).2 (bloomW2 n dev ino)).testBit
          (bloomBitIdx (bloomRot (bloomKey dev ino))) = true) ∧
    (∀ n σ dev ino, (bloomTestAndSet n σ dev ino).1 = true ↔
      ((σ (bloomW1 n dev ino)).testBit
          (bloomBitIdx (bloomKey dev ino)) = true ∧
       (σ (bloomW2 n dev ino)).testBit
          (bloomBitIdx (bloomRot (bloomKey dev ino))) = true)) ∧
    (∀ n σ dev ino,
      (bloomTestAndSet n ((bloomTestAndSet n σ dev ino).2) dev ino).1
        = true) := by
  refine ⟨?_, ?_, ?_, ?_, ?_⟩
  · intro n
    exact ⟨max (Nat.clog 2 n) 20, bloomBits_eq_pow n, bloomBits_ge n⟩
  · intro n dev ino
    exact ⟨bloomWords_bound n _, bloomWords_bound n _⟩
  · intro n σ dev ino
    constructor
    · exact (bloomTAS_testBit n σ dev ino _ _).mpr (Or.inr (Or.inl ⟨rfl, rfl⟩))
    · exact (bloomTAS_testBit n σ dev ino _ _).mpr
        (Or.inr (Or.inr ⟨rfl, rfl⟩))
  · intro n σ dev ino
    exact bloomTAS_ret n σ dev ino
  · intro n σ dev ino
    refine (bloomTAS_ret n _ dev ino).mpr ⟨?_, ?_⟩
    · exact (bloomTAS_testBit n σ dev ino _ _).mpr (Or.inr (Or.inl ⟨rfl, rfl⟩))
    · exact (bloomTAS_testBit n σ dev ino _ _).mpr
        (Or.inr (Or.inr ⟨rfl, rfl⟩))

/-! ### Claim C9 — visited-directory check -/

theorem cvd_not_follow (nb : Nat) (st : VisitState) (dev ino : Nat) :
    check_visited_directory false nb st dev ino = (false, st) := rfl

theorem cvd_no_vset (fl : Bool) (nb : Nat) (bl : Option (Nat → Nat))
    (dev ino : Nat) :
    check_visited_directory fl nb ⟨bl, none⟩ dev ino = (false, ⟨bl, none⟩) := by
  cases fl <;> rfl

theorem cvd_bloom_neg (nb : Nat) (σ : Nat → Nat) (vs : List (Nat × Nat))
    (dev ino : Nat) (h : (bloomTestAndSet nb σ dev ino).1 = false) :
    check_visited_directory true nb ⟨some σ, some vs⟩ dev ino
      = (false, ⟨some (bloomTestAndSet nb σ dev ino).2, some vs⟩) := by
  unfold check_visited_directory
  simp [h]

theorem cvd_bloom_pos (nb : Nat) (σ : Nat → Nat) (vs : List (Nat × Nat))
    (dev ino : Nat) (h : (bloomTestAndSet nb σ dev ino).1 = true) :
    check_visited_directory true nb ⟨some σ, some vs⟩ dev ino
      = (decide ((dev, ino) ∈ vs),
         ⟨some (bloomTestAndSet nb σ dev ino).2,
          some (if (dev, ino) ∈ vs then vs else (dev, ino) :: vs)⟩) := by
  unfold check_visited_directory
  simp [h]

theorem bloomTAS_zero_false (nb dev ino : Nat) :
    (bloomTestAndSet nb (fun _ => 0) dev ino).1 = false := by
  rw [bloomTAS_fst]
  simp [Nat.zero_and]

theorem bloomTAS_again_true (nb : Nat) (σ : Nat → Nat) (dev ino : Nat) :
    (bloomTestAndSet nb (bloomTestAndSet nb σ dev ino).2 dev ino).1 = true := by
  refine (bloomTAS_ret nb _ dev ino).mpr ⟨?_, ?_⟩
  · exact (bloomTAS_testBit nb σ dev ino _ _).mpr (Or.inr (Or.inl ⟨rfl, rfl⟩))
  · exact (bloomTAS_testBit nb σ dev ino _ _).mpr (Or.inr (Or.inr ⟨rfl, rfl⟩))

/-- C9: with `follow_links` set and both the Bloom filter and the
exact visited set configured (started empty, so the key's Bloom
positions are initially clear), the first `check_visited_directory`
call for a key sets the Bloom bits but does not insert into the exact
set and returns false; the second call performs the first exact-set
insert and still returns false; the third call returns true.  With
`follow_links` false, or with no visited set configured, every call
returns false and leaves the state unchanged. -/
theorem c9_visited_one_late :
    (∀ dev ino : Nat,
      let s0 : VisitState := ⟨some (fun _ => 0), some []⟩
      let c1 := check_visited_directory true 0 s0 dev ino
      let c2 := check_visited_directory true 0 c1.2 dev ino
      let c3 := check_visited_directory true 0 c2.2 dev ino
      c1.1 = false ∧ c1.2.vset = some [] ∧
      c2.1 = false ∧ c2.2.vset = some [(dev, ino)] ∧
      c3.1 = true ∧ c3.2.vset = some [(dev, ino)]) ∧
    (∀ nb st dev ino,
      check_visited_directory false nb st dev ino = (false, st)) ∧
    (∀ fl nb bl dev ino,
      check_visited_directory fl nb ⟨bl, none⟩ dev ino
        = (false, ⟨bl, none⟩)) := by
  refine ⟨?_, cvd_not_follow, cvd_no_vset⟩
  intro dev ino
  have h1 : check_visited_directory true 0 ⟨some (fun _ => 0), some []⟩ dev ino
      = (false, ⟨some (bloomTestAndSet 0 (fun _ => 0) dev ino).2, some []⟩) :=
    cvd_bloom_neg 0 _ [] dev ino (bloomTAS_zero_false 0 dev ino)
  have h2 : check_visited_directory true 0
        ⟨some (bloomTestAndSet 0 (fun _ => 0) dev ino).2, some []⟩ dev ino
      = (false,
         ⟨some (bloomTestAndSet 0
             (bloomTestAndSet 0 (fun _ => 0) dev ino).2 dev ino).2,
          some [(dev, ino)]⟩) := by
    rw [cvd_bloom_pos 0 _ [] dev ino (bloomTAS_again_true 0 _ dev ino)]
    simp
  have h3 : check_visited_directory true 0
        ⟨some (bloomTestAndSet 0
            (bloomTestAndSet 0 (fun _ => 0) dev ino).2 dev ino).2,
         some [(dev, ino)]⟩ dev ino
      = (true,
         ⟨some (bloomTestAndSet 0
             (bloomTestAndSet 0
               (bloomTestAndSet 0 (fun _ => 0) dev ino).2 dev ino).2
             dev ino).2,
          some [(dev, ino)]⟩) := by
    rw [cvd_bloom_pos 0 _ [(dev, ino)] dev ino
      (bloomTAS_again_true 0 _ dev ino)]
    simp
  dsimp only
  rw [h1]
  dsimp only
  rw [h2]
  dsimp only
  rw [h3]
  exact ⟨rfl, rfl, rfl, rfl, rfl, rfl⟩

/-! ### Ancestor-chain lemmas (claims C4 and C10) -/

theorem ancChainAux_fuel (n : Nat) :
    ∀ (m : Nat) (p : RPath), p.length ≤ n → p.length ≤ m →
      ancChainAux n p = ancChainAux m p := by
  induction n with
  | zero =>
    intro m p hn _
    have hp : p = [] := List.length_eq_zero.mp (Nat.le_zero.mp hn)
    subst hp
    cases m <;> rfl
  | succ n ih =>
    intro m p hn hm
    cases m with
    | zero =>
      have hp : p = [] := List.length_eq_zero.mp (Nat.le_zero.mp hm)
      subst hp
      rfl
    | succ m =>
      simp only [ancChainAux]
      by_cases h : p = [] ∨ p = [PComp.rootDir]
      · rw [if_pos h, if_pos h]
      · rw [if_neg h, if_neg h]
        have hp : p ≠ [] := fun he => h (Or.inl he)
        have hlp : 0 < p.length := List.length_pos.mpr hp
        have hd := List.length_dropLast p
        congr 1
        exact ih m p.dropLast (by omega) (by omega)

theorem ancChain_unfold (p : RPath) :
    ancChain p = if p = [] ∨ p = [PComp.rootDir] then []
      else p.dropLast :: ancChain p.dropLast := by
  unfold ancChain
  by_cases h : p = [] ∨ p = [PComp.rootDir]
  · rw [if_pos h]
    rcases h with h | h <;> subst h <;> rfl
  · rw [if_neg h]
    have hp : p ≠ [] := fun he => h (Or.inl he)
    have hlp : 0 < p.length := List.length_pos.mpr hp
    have hd := List.length_dropLast p
    cases hl : p.length with
    | zero => omega
    | succ n =>
      simp only [ancChainAux]
      rw [if_neg h]
      congr 1
      exact ancChainAux_fuel n p.dropLast.length p.dropLast (by omega)
        (le_refl _)

theorem parentOf_nontrivial (p : RPath)
    (h : ¬(p = [] ∨ p = [PComp.rootDir])) :
    parentOf p = some p.dropLast := by
  unfold parentOf
  rw [if_neg h]

theorem parentOf_length (p q : RPath) (h : parentOf p = some q) :
    p ≠ [] ∧ p.length = q.length + 1 := by
  unfold parentOf at h
  by_cases hc : p = [] ∨ p = [PComp.rootDir]
  · rw [if_pos hc] at h
    cases h
  · rw [if_neg hc] at h
    injection h with h
    subst h
    have hp : p ≠ [] := fun he => hc (Or.inl he)
    have hlp : 0 < p.length := List.length_pos.mpr hp
    have hd := List.length_dropLast p
    exact ⟨hp, by omega⟩

theorem ancChain_cons_of_parent (p q : RPath) (h : parentOf p = some q) :
    ancChain p = q :: ancChain q := by
  unfold parentOf at h
  by_cases hc : p = [] ∨ p = [PComp.rootDir]
  · rw [if_pos hc] at h
    cases h
  · rw [if_neg hc] at h
    injection h with h
    subst h
    rw [ancChain_unfold, if_neg hc]

theorem mem_ancChain_of_parent (p q : RPath) (h : parentOf p = some q) :
    q ∈ ancChain p := by
  rw [ancChain_cons_of_parent p q h]
  exact List.mem_cons_self _ _

theorem mem_ancChain_length_aux (n : Nat) :
    ∀ (q : RPath), q.length ≤ n → ∀ a ∈ ancChain q, a.length < q.length := by
  induction n with
  | zero =>
    intro q hq a ha
    have : q = [] := List.length_eq_zero.mp (Nat.le_zero.mp hq)
    subst this
    cases ha
  | succ n ih =>
    intro q hq a ha
    rw [ancChain_unfold] at ha
    by_cases hc : q = [] ∨ q = [PComp.rootDir]
    · rw [if_pos hc] at ha
      cases ha
    · rw [if_neg hc] at ha
      have hp : q ≠ [] := fun he => hc (Or.inl he)
      have hlp : 0 < q.length := List.length_pos.mpr hp
      have hd := List.length_dropLast q
      rcases List.mem_cons.mp ha with rfl | ha2
      · omega
      · have := ih q.dropLast (by omega) a ha2
        omega

theorem mem_ancChain_length {a q : RPath} (h : a ∈ ancChain q) :
    a.length < q.length :=
  mem_ancChain_length_aux q.length q (le_refl _) a h

theorem ancChain_trans_aux (n : Nat) :
    ∀ (c : RPath), c.length ≤ n → ∀ a b, b ∈ ancChain c →
      a ∈ ancChain b → a ∈ ancChain c := by
  induction n with
  | zero =>
    intro c hc a b hb _
    have : c = [] := List.length_eq_zero.mp (Nat.le_zero.mp hc)
    subst this
    cases hb
  | succ n ih =>
    intro c hc a b hb ha
    rw [ancChain_unfold] at hb ⊢
    by_cases hcc : c = [] ∨ c = [PComp.rootDir]
    · rw [if_pos hcc] at hb
      cases hb
    · rw [if_neg hcc] at hb ⊢
      have hp : c ≠ [] := fun he => hcc (Or.inl he)
      have hlp : 0 < c.length := List.length_pos.mpr hp
      have hd := List.length_dropLast c
      rcases List.mem_cons.mp hb with rfl | hb2
      · exact List.mem_cons_of_mem _ ha
      · exact List.mem_cons_of_mem _ (ih c.dropLast (by omega) a b hb2 ha)

theorem mem_ancChain_trans {a b c : RPath} (hab : a ∈ ancChain b)
    (hbc : b ∈ ancChain c) : a ∈ ancChain c :=
  ancChain_trans_aux c.length c (le_refl _) a b hbc hab

theorem ancChain_unique_aux (n : Nat) :
    ∀ (q : RPath), q.length ≤ n → ∀ a b, a ∈ ancChain q → b ∈ ancChain q →
      a.length = b.length → a = b := by
  induction n with
  | zero =>
    intro q hq a b ha _ _
    have : q = [] := List.length_eq_zero.mp (Nat.le_zero.mp hq)
    subst this
    cases ha
  | succ n ih =>
    intro q hq a b ha hb hl
    rw [ancChain_unfold] at ha hb
    by_cases hc : q = [] ∨ q = [PComp.rootDir]
    · rw [if_pos hc] at ha
      cases ha
    · rw [if_neg hc] at ha hb
      have hp : q ≠ [] := fun he => hc (Or.inl he)
      have hlp : 0 < q.length := List.length_pos.mpr hp
      have hd := List.length_dropLast q
      rcases List.mem_cons.mp ha with rfl | ha2
      · rcases List.mem_cons.mp hb with rfl | hb2
        · rfl
        · have := mem_ancChain_length hb2
          omega
      · rcases List.mem_cons.mp hb with rfl | hb2
        · have := mem_ancChain_length ha2
          omega
        · exact ih q.dropLast (by omega) a b ha2 hb2 hl

theorem mem_ancChain_unique {a b q : RPath} (ha : a ∈ ancChain q)
    (hb : b ∈ ancChain q) (hl : a.length = b.length) : a = b :=
  ancChain_unique_aux q.length q (le_refl _) a b ha hb hl

theorem ancChain_ord_aux (n : Nat) :
    ∀ (t : RPath), t.length ≤ n → ∀ a b, a ∈ ancChain t → b ∈ ancChain t →
      a.length < b.length → a ∈ ancChain b := by
  induction n with
  | zero =>
    intro t ht a b ha _ _
    have : t = [] := List.length_eq_zero.mp (Nat.le_zero.mp ht)
    subst this
    cases ha
  | succ n ih =>
    intro t ht a b ha hb hl
    rw [ancChain_unfold] at ha hb
    by_cases hc : t = [] ∨ t = [PComp.rootDir]
    · rw [if_pos hc] at ha
      cases ha
    · rw [if_neg hc] at ha hb
      have hp : t ≠ [] := fun he => hc (Or.inl he)
      have hlp : 0 < t.length := List.length_pos.mpr hp
      have hd := List.length_dropLast t
      rcases List.mem_cons.mp hb with rfl | hb2
      · rcases List.mem_cons.mp ha with rfl | ha2
        · omega
        · exact ha2
      · rcases List.mem_cons.mp ha with rfl | ha2
        · have := mem_ancChain_length hb2
          omega
        · exact ih t.dropLast (by omega) a b ha2 hb2 hl

theorem mem_ancChain_ord {a b t : RPath} (ha : a ∈ ancChain t)
    (hb : b ∈ ancChain t) (hl : a.length < b.length) : a ∈ ancChain b :=
  ancChain_ord_aux t.length t (le_refl _) a b ha hb hl

theorem ancChain_lift_aux (n : Nat) :
    ∀ (q : RPath), q.length ≤ n → ∀ p ∈ ancChain q,
      ∃ c, parentOf c = some p ∧ (c = q ∨ c ∈ ancChain q) := by
  induction n with
  | zero =>
    intro q hq p hp
    have : q = [] := List.length_eq_zero.mp (Nat.le_zero.mp hq)
    subst this
    cases hp
  | succ n ih =>
    intro q hq p hp
    rw [ancChain_unfold] at hp
    by_cases hc : q = [] ∨ q = [PComp.rootDir]
    · rw [if_pos hc] at hp
      cases hp
    · rw [if_neg hc] at hp
      have hpne : q ≠ [] := fun he => hc (Or.inl he)
      have hlp : 0 < q.length := List.length_pos.mpr hpne
      have hd := List.length_dropLast q
      rcases List.mem_cons.mp hp with rfl | hp2
      · exact ⟨q, parentOf_nontrivial q hc, Or.inl rfl⟩
      · obtain ⟨c, hcp, hcq⟩ := ih q.dropLast (by omega) p hp2
        refine ⟨c, hcp, Or.inr ?_⟩
        rw [ancChain_unfold, if_neg hc]
        rcases hcq with rfl | hcq2
        · exact List.mem_cons_self _ _
        · exact List.mem_cons_of_mem _ hcq2

theorem ancChain_lift {p q : RPath} (hp : p ∈ ancChain q) :
    ∃ c, parentOf c = some p ∧ (c = q ∨ c ∈ ancChain q) :=
  ancChain_lift_aux q.length q (le_refl _) p hp

/-! ### Map-update lemmas -/

theorem addTo_nil (k : RPath) (s : Stat) : addTo [] k s = [(k, s)] := rfl

theorem addTo_cons (k1 : RPath) (s1 : Stat) (t : SMap) (k : RPath) (s : Stat) :
    addTo ((k1, s1) :: t) k s =
      if k1 = k then (k1, s1 + s) :: t else (k1, s1) :: addTo t k s := rfl

theorem lookupS_cons (k1 : RPath) (s1 : Stat) (t : SMap) (q : RPath) :
    lookupS ((k1, s1) :: t) q = if k1 = q then some s1 else lookupS t q := rfl

theorem valAt_nil (q : RPath) : valAt [] q = Stat.zero := rfl

theorem valAt_cons (k1 : RPath) (s1 : Stat) (t : SMap) (q : RPath) :
    valAt ((k1, s1) :: t) q = if k1 = q then s1 else valAt t q := by
  unfold valAt
  rw [lookupS_cons]
  by_cases h : k1 = q <;> simp [h]

theorem hasKey_nil (q : RPath) : hasKey [] q = false := rfl

theorem hasKey_cons (k1 : RPath) (s1 : Stat) (t : SMap) (q : RPath) :
    hasKey ((k1, s1) :: t) q = (decide (k1 = q) || hasKey t q) := by
  unfold hasKey
  rw [lookupS_cons]
  by_cases h : k1 = q <;> simp [h]

theorem valAt_addTo (m : SMap) (k : RPath) (s : Stat) (q : RPath) :
    valAt (addTo m k s) q =
      if q = k then valAt m q + s else valAt m q := by
  induction m with
  | nil =>
    by_cases h : q = k
    · subst h
      simp [addTo_nil, valAt_cons, valAt_nil, stat_zero_add]
    · have h2 : ¬ k = q := fun he => h he.symm
      simp [addTo_nil, valAt_cons, valAt_nil, h, h2]
  | cons e t ih =>
    obtain ⟨k1, s1⟩ := e
    rw [addTo_cons]
    by_cases hk : k1 = k
    · subst hk
      rw [if_pos rfl]
      by_cases hq : k1 = q
      · subst hq
        simp [valAt_cons]
      · have hq2 : ¬ q = k1 := fun he => hq he.symm
        simp [valAt_cons, hq, hq2]
    · rw [if_neg hk]
      by_cases hq : k1 = q
      · subst hq
        have hq2 : ¬ k1 = k := hk
        simp [valAt_cons, hq2]
      · simp [valAt_cons, hq, ih]

theorem hasKey_addTo (m : SMap) (k : RPath) (s : Stat) (q : RPath) :
    hasKey (addTo m k s) q = (hasKey m q || decide (q = k)) := by
  induction m with
  | nil =>
    by_cases h : q = k
    · subst h
      simp [addTo_nil, hasKey_cons, hasKey_nil]
    · have h2 : ¬ k = q := fun he => h he.symm
      simp [addTo_nil, hasKey_cons, hasKey_nil, h, h2]
  | cons e t ih =>
    obtain ⟨k1, s1⟩ := e
    rw [addTo_cons]
    by_cases hk : k1 = k
    · subst hk
      rw [if_pos rfl]
      by_cases hq : k1 = q
      · subst hq
        simp [hasKey_cons]
      · have hq2 : ¬ q = k1 := fun he => hq he.symm
        simp [hasKey_cons, hq, hq2]
    · rw [if_neg hk]
      simp [hasKey_cons, ih, Bool.or_assoc]

theorem hasKey_of_mem_keys (m : SMap) (q : RPath) (h : q ∈ keysOf m) :
    hasKey m q = true := by
  induction m with
  | nil => cases h
  | cons e t ih =>
    obtain ⟨k1, s1⟩ := e
    rw [hasKey_cons]
    have hh : q ∈ k1 :: keysOf t := h
    rcases List.mem_cons.mp hh with rfl | h2
    · simp
    · simp [ih h2]

theorem valAt_rollStep (M : SMap) (p q : RPath) :
    valAt (rollStep M p) q = valAt M q +
      (if parentOf p = some q then valAt M p else Stat.zero) := by
  unfold rollStep
  cases hpar : parentOf p with
  | none => simp [stat_add_zero]
  | some par =>
    cases hlk : lookupS M p with
    | none =>
      have hz : valAt M p = Stat.zero := by simp [valAt, hlk]
      rw [hz]
      by_cases h : par = q <;> simp [h, stat_add_zero]
    | some st =>
      have hv : valAt M p = st := by simp [valAt, hlk]
      rw [valAt_addTo, hv]
      by_cases h : q = par
      · subst h
        simp
      · have h2 : ¬ (some par = some q) := by
          intro he
          injection he with he
          exact h he.symm
        simp [h, h2, stat_add_zero]

theorem hasKey_rollStep_mono (M : SMap) (p q : RPath)
    (h : hasKey M q = true) : hasKey (rollStep M p) q = true := by
  unfold rollStep
  cases parentOf p with
  | none => exact h
  | some par =>
    cases lookupS M p with
    | none => exact h
    | some st => simp [hasKey_addTo, h]

theorem hasKey_rollStep_parent (M : SMap) (p par : RPath)
    (hpar : parentOf p = some par) (hp : hasKey M p = true) :
    hasKey (rollStep M p) par = true := by
  unfold rollStep
  rw [hpar]
  cases hlk : lookupS M p with
  | none => simp [hasKey, hlk] at hp
  | some st => simp [hasKey_addTo]

theorem processLevel_cons (M : SMap) (c : RPath) (t : List RPath) :
    processLevel M (c :: t) = processLevel (rollStep M c) t := rfl

theorem valAt_processLevel_skip (ps : List RPath) :
    ∀ (M : SMap) (q : RPath), (∀ c ∈ ps, ¬ parentOf c = some q) →
      valAt (processLevel M ps) q = valAt M q := by
  induction ps with
  | nil => intro M q _; rfl
  | cons c t ih =>
    intro M q h
    rw [processLevel_cons,
      ih (rollStep M c) q (fun x hx => h x (List.mem_cons_of_mem _ hx)),
      valAt_rollStep, if_neg (h c (List.mem_cons_self _ _)), stat_add_zero]

theorem valAt_processLevel (d : Nat) (ps : List RPath) :
    ∀ (M : SMap) (q : RPath), (∀ c ∈ ps, depthOf c = d) →
      valAt (processLevel M ps) q = valAt M q +
        sumStats ((ps.filter (fun c => decide (parentOf c = some q))).map
          (fun c => valAt M c)) := by
  induction ps with
  | nil => intro M q _; simp [processLevel, sumStats_nil, stat_add_zero]
  | cons c t ih =>
    intro M q hps
    have hc : depthOf c = d := hps c (List.mem_cons_self _ _)
    have hpst : ∀ x ∈ t, depthOf x = d :=
      fun x hx => hps x (List.mem_cons_of_mem _ hx)
    rw [processLevel_cons, ih (rollStep M c) q hpst]
    have hpres : ∀ x ∈ t.filter (fun c => decide (parentOf c = some q)),
        valAt (rollStep M c) x = valAt M x := by
      intro x hx
      have hxt := List.mem_filter.mp hx
      have hxd : depthOf x = d := hpst x hxt.1
      rw [valAt_rollStep]
      by_cases hpc : parentOf c = some x
      · obtain ⟨hne, hlen⟩ := parentOf_length c x hpc
        have hcl : 0 < c.length := List.length_pos.mpr hne
        unfold depthOf at hc hxd
        omega
      · rw [if_neg hpc, stat_add_zero]
    rw [List.map_congr_left hpres, valAt_rollStep]
    by_cases hpc : parentOf c = some q
    · rw [show (c :: t).filter (fun c => decide (parentOf c = some q))
          = c :: t.filter (fun c => decide (parentOf c = some q)) from by
        simp [List.filter_cons, hpc]]
      rw [if_pos hpc, List.map_cons, sumStats_cons, stat_add_assoc]
    · rw [show (c :: t).filter (fun c => decide (parentOf c = some q))
          = t.filter (fun c => decide (parentOf c = some q)) from by
        simp [List.filter_cons, hpc]]
      rw [if_neg hpc, stat_add_zero]

theorem hasKey_processLevel_mono (ps : List RPath) :
    ∀ (M : SMap) (q : RPath), hasKey M q = true →
      hasKey (processLevel M ps) q = true := by
  induction ps with
  | nil => intro M q h; exact h
  | cons c t ih =>
    intro M q h
    rw [processLevel_cons]
    exact ih _ q (hasKey_rollStep_mono M c q h)

theorem hasKey_processLevel_parent (ps : List RPath) :
    ∀ (M : SMap) (p par : RPath), p ∈ ps → parentOf p = some par →
      hasKey M p = true → hasKey (processLevel M ps) par = true := by
  induction ps with
  | nil => intro M p par hmem; cases hmem
  | cons c t ih =>
    intro M p par hmem hpar hp
    rw [processLevel_cons]
    rcases List.mem_cons.mp hmem with rfl | hmem2
    · exact hasKey_processLevel_mono t _ par
        (hasKey_rollStep_parent M p par hpar hp)
    · exact ih _ p par hmem2 hpar (hasKey_rollStep_mono M c p hp)

theorem statLe_valAt_rollStep (M : SMap) (p q : RPath) :
    statLe (valAt M q) (valAt (rollStep M p) q) := by
  rw [valAt_rollStep]
  exact statLe_add_right _ _

theorem statLe_valAt_processLevel (ps : List RPath) :
    ∀ (M : SMap) (q : RPath),
      statLe (valAt M q) (valAt (processLevel M ps) q) := by
  induction ps with
  | nil => intro M q; exact statLe_refl _
  | cons c t ih =>
    intro M q
    rw [processLevel_cons]
    exact statLe_trans (statLe_valAt_rollStep M c q) (ih _ q)

theorem levelFold_cons (ks : List RPath) (M : SMap) (a : Nat)
    (ds : List Nat) :
    levelFold ks M (a :: ds)
      = levelFold ks (processLevel M (keysAtDepth ks a)) ds := rfl

theorem statLe_valAt_levelFold (ks : List RPath) (ds : List Nat) :
    ∀ (M : SMap) (q : RPath),
      statLe (valAt M q) (valAt (levelFold ks M ds) q) := by
  induction ds with
  | nil => intro M q; exact statLe_refl _
  | cons a t ih =>
    intro M q
    rw [levelFold_cons]
    exact statLe_trans (statLe_valAt_processLevel _ M q) (ih _ q)

theorem hasKey_levelFold_mono (ks : List RPath) (ds : List Nat) :
    ∀ (M : SMap) (q : RPath), hasKey M q = true →
      hasKey (levelFold ks M ds) q = true := by
  induction ds with
  | nil => intro M q h; exact h
  | cons a t ih =>
    intro M q h
    rw [levelFold_cons]
    exact ih _ q (hasKey_processLevel_mono _ M q h)

theorem valAt_levelFold_skip (ks : List RPath) (ds : List Nat) :
    ∀ (M : SMap) (q : RPath),
      (∀ x ∈ ds, ∀ c ∈ keysAtDepth ks x, ¬ parentOf c = some q) →
      valAt (levelFold ks M ds) q = valAt M q := by
  induction ds with
  | nil => intro M q _; rfl
  | cons a t ih =>
    intro M q h
    rw [levelFold_cons,
      ih _ q (fun x hx => h x (List.mem_cons_of_mem _ hx)),
      valAt_processLevel_skip _ M q (h a (List.mem_cons_self _ _))]

/-! ### Sum and connectivity lemmas -/

theorem stat_add_swap (a b c d : Stat) :
    (a + b) + (c + d) = (a + c) + (b + d) := by
  cases a; cases b; cases c; cases d
  simp [stat_add_def]
  omega

theorem sumStats_map_all_zero {α : Type} (l : List α) (f : α → Stat)
    (h : ∀ x ∈ l, f x = Stat.zero) : sumStats (l.map f) = Stat.zero := by
  induction l with
  | nil => rfl
  | cons a t ih =>
    rw [List.map_cons, sumStats_cons, h a (List.mem_cons_self _ _),
      ih (fun x hx => h x (List.mem_cons_of_mem _ hx)), stat_add_zero]

theorem sumStats_map_single (l : List RPath) (hnd : l.Nodup)
    (f : RPath → Stat) (c : RPath) (hc : c ∈ l)
    (hz : ∀ x ∈ l, x ≠ c → f x = Stat.zero) :
    sumStats (l.map f) = f c := by
  induction l with
  | nil => cases hc
  | cons a t ih =>
    obtain ⟨hna, hnt⟩ := List.nodup_cons.mp hnd
    rw [List.map_cons, sumStats_cons]
    rcases List.mem_cons.mp hc with rfl | hct
    · have hzt : ∀ x ∈ t, f x = Stat.zero := by
        intro x hx
        exact hz x (List.mem_cons_of_mem _ hx)
          (fun he => hna (he ▸ hx))
      rw [sumStats_map_all_zero t f hzt, stat_add_zero]
    · have hac : a ≠ c := fun he => hna (he ▸ hct)
      rw [hz a (List.mem_cons_self _ _) hac, stat_zero_add]
      exact ih hnt hct (fun x hx hxc =>
        hz x (List.mem_cons_of_mem _ hx) hxc)

theorem mem_keysAtDepth (ks : List RPath) (d : Nat) (c : RPath) :
    c ∈ keysAtDepth ks d ↔ c ∈ ks ∧ depthOf c = d := by
  unfold keysAtDepth
  simp [List.mem_filter]

theorem connTo_not_self (ks : List RPath) (q : RPath) : ¬ connTo ks q q := by
  intro h
  have := mem_ancChain_length h.1
  omega

theorem connTo_of_parent (ks : List RPath) (q p : RPath)
    (h : parentOf q = some p) : connTo ks q p := by
  refine ⟨mem_ancChain_of_parent q p h, ?_⟩
  intro r hr hpr
  rw [ancChain_cons_of_parent q p h] at hr
  rcases List.mem_cons.mp hr with rfl | hr2
  · have := mem_ancChain_length hpr
    omega
  · have h1 := mem_ancChain_length hr2
    have h2 := mem_ancChain_length hpr
    omega

theorem connTo_extend (ks : List RPath) (q x p : RPath) (hxks : x ∈ ks)
    (hxp : parentOf x = some p) (hconn : connTo ks q x) : connTo ks q p := by
  obtain ⟨hxq, hbet⟩ := hconn
  have hpx : p ∈ ancChain x := mem_ancChain_of_parent x p hxp
  have hxlen : x.length = p.length + 1 := (parentOf_length x p hxp).2
  refine ⟨mem_ancChain_trans hpx hxq, ?_⟩
  intro r hr hpr
  have hrlen : p.length < r.length := mem_ancChain_length hpr
  rcases Nat.lt_trichotomy r.length x.length with hlt | heq | hgt
  · omega
  · have hrx : r = x := mem_ancChain_unique hr hxq heq
    rw [hrx]
    exact hxks
  · exact hbet r hr (mem_ancChain_ord hxq hr hgt)

theorem conn_lift (ks : List RPath) (p q : RPath) (hq : q ∈ ks)
    (hconn : connTo ks q p) :
    ∃ c, parentOf c = some p ∧ c ∈ ks ∧ c.length = p.length + 1 ∧
      (q = c ∨ connTo ks q c) ∧
      ∀ c2, parentOf c2 = some p → (q = c2 ∨ connTo ks q c2) → c2 = c := by
  obtain ⟨hpq, hbet⟩ := hconn
  obtain ⟨c, hcp, hctag⟩ := ancChain_lift hpq
  have hclen : c.length = p.length + 1 := (parentOf_length c p hcp).2
  have hpc : p ∈ ancChain c := mem_ancChain_of_parent c p hcp
  have hcks : c ∈ ks := by
    rcases hctag with rfl | hcm
    · exact hq
    · exact hbet c hcm hpc
  have htag2 : q = c ∨ connTo ks q c := by
    rcases hctag with rfl | hcm
    · exact Or.inl rfl
    · refine Or.inr ⟨hcm, ?_⟩
      intro r hr hcr
      exact hbet r hr (mem_ancChain_trans hpc hcr)
  refine ⟨c, hcp, hcks, hclen, htag2, ?_⟩
  intro c2 hc2p htag2'
  have hc2len : c2.length = p.length + 1 := (parentOf_length c2 p hc2p).2
  have hll : c2.length = c.length := by omega
  have hcm2 : c2 = q ∨ c2 ∈ ancChain q := by
    rcases htag2' with he | hcc
    · exact Or.inl he.symm
    · exact Or.inr hcc.1
  have hcm1 : c = q ∨ c ∈ ancChain q := by
    rcases htag2 with he | hcc
    · exact Or.inl he.symm
    · exact Or.inr hcc.1
  rcases hcm2 with rfl | h2m
  · rcases hcm1 with rfl | hm
    · rfl
    · have := mem_ancChain_length hm
      omega
  · rcases hcm1 with rfl | hm
    · have := mem_ancChain_length h2m
      omega
    · exact mem_ancChain_unique h2m hm hll

theorem conn_indicator (ks : List RPath) (hnd : ks.Nodup) (p q : RPath)
    (hq : q ∈ ks) (v : Stat) :
    sumStats (((keysAtDepth ks (depthOf p + 1)).filter
        (fun c => decide (parentOf c = some p))).map
        (fun c => (if q = c then v else Stat.zero) +
          (if connTo ks q c then v else Stat.zero)))
      = if connTo ks q p then v else Stat.zero := by
  by_cases hconn : connTo ks q p
  · rw [if_pos hconn]
    obtain ⟨c, hcp, hcks, hclen, hctag, huniq⟩ := conn_lift ks p q hq hconn
    have hLnd : ((keysAtDepth ks (depthOf p + 1)).filter
        (fun c => decide (parentOf c = some p))).Nodup :=
      ((hnd.filter _).filter _)
    have hcl : c ∈ (keysAtDepth ks (depthOf p + 1)).filter
        (fun c => decide (parentOf c = some p)) := by
      apply List.mem_filter.mpr
      refine ⟨(mem_keysAtDepth ks _ c).mpr ⟨hcks, ?_⟩, by simp [hcp]⟩
      unfold depthOf
      omega
    have hz : ∀ x ∈ (keysAtDepth ks (depthOf p + 1)).filter
        (fun c => decide (parentOf c = some p)), x ≠ c →
        (if q = x then v else Stat.zero) +
          (if connTo ks q x then v else Stat.zero) = Stat.zero := by
      intro x hx hxc
      have hx1 := List.mem_filter.mp hx
      have hxp : parentOf x = some p := of_decide_eq_true hx1.2
      have hnq : ¬ q = x := fun he => hxc (huniq x hxp (Or.inl he))
      have hnc : ¬ connTo ks q x :=
        fun hcx => hxc (huniq x hxp (Or.inr hcx))
      rw [if_neg hnq, if_neg hnc, stat_add_zero]
    rw [sumStats_map_single _ hLnd _ c hcl hz]
    rcases hctag with he | hcc
    · have hnc : ¬ connTo ks q c := by
        rw [← he]
        exact connTo_not_self ks q
      rw [if_pos he, if_neg hnc, stat_add_zero]
    · have hne : ¬ q = c := by
        intro he
        rw [← he] at hcc
        exact connTo_not_self ks q hcc
      rw [if_neg hne, if_pos hcc, stat_zero_add]
  · rw [if_neg hconn]
    apply sumStats_map_all_zero
    intro x hx
    have hx1 := List.mem_filter.mp hx
    have hxks : x ∈ ks := ((mem_keysAtDepth ks _ x).mp hx1.1).1
    have hxp : parentOf x = some p := of_decide_eq_true hx1.2
    have h1 : ¬ q = x := by
      intro he
      exact hconn (he ▸ connTo_of_parent ks x p hxp)
    have h2 : ¬ connTo ks q x :=
      fun hcx => hconn (connTo_extend ks q x p hxks hxp hcx)
    rw [if_neg h1, if_neg h2, stat_add_zero]

theorem eqSum_nil (c : RPath) : eqSum [] c = Stat.zero := rfl

theorem connSumK_nil (ks : List RPath) (p : RPath) :
    connSumK ks [] p = Stat.zero := rfl

theorem eqSum_cons (qe : RPath) (v : Stat) (t : SMap) (c : RPath) :
    eqSum ((qe, v) :: t) c =
      (if qe = c then v else Stat.zero) + eqSum t c := by
  unfold eqSum
  rw [List.filter_cons]
  by_cases h : qe = c
  · simp [h, sumStats_cons]
  · simp [h, stat_zero_add]

theorem connSumK_cons (ks : List RPath) (qe : RPath) (v : Stat) (t : SMap)
    (x : RPath) :
    connSumK ks ((qe, v) :: t) x =
      (if connTo ks qe x then v else Stat.zero) + connSumK ks t x := by
  unfold connSumK
  rw [List.filter_cons]
  by_cases h : connTo ks qe x
  · simp [h, sumStats_cons]
  · simp [h, stat_zero_add]

theorem eqSum_not_mem (t : SMap) (c : RPath) (h : c ∉ keysOf t) :
    eqSum t c = Stat.zero := by
  induction t with
  | nil => rfl
  | cons e t2 ih =>
    obtain ⟨k1, s1⟩ := e
    have hne : ¬ k1 = c := by
      intro he
      exact h (by simp [keysOf, he.symm])
    have hnc : c ∉ keysOf t2 := fun hc => h (by simp [keysOf] at hc ⊢; tauto)
    rw [eqSum_cons, if_neg hne, ih hnc, stat_zero_add]

theorem eqSum_eq_valAt (m : SMap) (hnd : (keysOf m).Nodup) (c : RPath) :
    eqSum m c = valAt m c := by
  induction m with
  | nil => rfl
  | cons e t ih =>
    obtain ⟨k1, s1⟩ := e
    have hnd2 : (k1 :: keysOf t).Nodup := hnd
    obtain ⟨hna, hnt⟩ := List.nodup_cons.mp hnd2
    rw [eqSum_cons, valAt_cons]
    by_cases h : k1 = c
    · subst h
      rw [if_pos rfl, if_pos rfl, eqSum_not_mem t k1 hna, stat_add_zero]
    · rw [if_neg h, if_neg h, stat_zero_add]
      exact ih hnt

theorem conn_partition (ks : List RPath) (hnd : ks.Nodup) (p : RPath) :
    ∀ ents : SMap, (∀ e ∈ ents, e.1 ∈ ks) →
      sumStats (((keysAtDepth ks (depthOf p + 1)).filter
          (fun c => decide (parentOf c = some p))).map
          (fun c => eqSum ents c + connSumK ks ents c))
        = connSumK ks ents p := by
  intro ents
  induction ents with
  | nil =>
    intro _
    rw [sumStats_map_all_zero _ _
      (fun c _ => by rw [eqSum_nil, connSumK_nil, stat_add_zero])]
    rfl
  | cons e t ih =>
    intro hmem
    obtain ⟨qe, v⟩ := e
    have hq : qe ∈ ks := hmem (qe, v) (List.mem_cons_self _ _)
    have hmt : ∀ x ∈ t, x.1 ∈ ks :=
      fun x hx => hmem x (List.mem_cons_of_mem _ hx)
    have hpt : ∀ c ∈ (keysAtDepth ks (depthOf p + 1)).filter
        (fun c => decide (parentOf c = some p)),
        eqSum ((qe, v) :: t) c + connSumK ks ((qe, v) :: t) c
          = ((if qe = c then v else Stat.zero) +
             (if connTo ks qe c then v else Stat.zero)) +
            (eqSum t c + connSumK ks t c) := by
      intro c _
      rw [eqSum_cons, connSumK_cons, stat_add_swap]
    rw [List.map_congr_left hpt, sumStats_map_add,
      conn_indicator ks hnd p qe hq v, ih hmt, connSumK_cons]

/-! ### Claim C4 — rollup totals -/

theorem foldl_max_facts (ks : List RPath) :
    ∀ a : Nat, a ≤ ks.foldl (fun acc p => max acc (depthOf p)) a ∧
      ∀ p ∈ ks, depthOf p ≤ ks.foldl (fun acc p => max acc (depthOf p)) a := by
  induction ks with
  | nil =>
    intro a
    exact ⟨le_refl _, fun p hp => absurd hp (List.not_mem_nil p)⟩
  | cons c t ih =>
    intro a
    constructor
    · exact le_trans (Nat.le_max_left a (depthOf c))
        (ih (max a (depthOf c))).1
    · intro p hp
      rcases List.mem_cons.mp hp with rfl | hp2
      · exact le_trans (Nat.le_max_right a (depthOf p))
          (ih (max a (depthOf p))).1
      · exact (ih (max a (depthOf c))).2 p hp2

theorem le_maxDepthOf (ks : List RPath) (p : RPath) (h : p ∈ ks) :
    depthOf p ≤ maxDepthOf ks :=
  (foldl_max_facts ks 0).2 p h

theorem rollup_inv (m : SMap) (hnd : (keysOf m).Nodup) :
    ∀ (d : Nat) (M : SMap),
      (∀ p, p ∈ keysOf m → d ≤ depthOf p →
        valAt M p = valAt m p + connSum m p) →
      (∀ p, p ∈ keysOf m → depthOf p < d → valAt M p = valAt m p) →
      ∀ p, p ∈ keysOf m →
        valAt (levelFold (keysOf m) M (levelsDown d)) p
          = valAt m p + connSum m p := by
  intro d
  induction d with
  | zero =>
    intro M h1 _ p hp
    exact h1 p hp (Nat.zero_le _)
  | succ d ih =>
    intro M h1 h2 p hp
    rw [show levelsDown (d + 1) = (d + 1) :: levelsDown d from rfl,
      levelFold_cons]
    have huni : ∀ c ∈ keysAtDepth (keysOf m) (d + 1), depthOf c = d + 1 :=
      fun c hc => ((mem_keysAtDepth _ _ c).mp hc).2
    refine ih _ ?_ ?_ p hp
    · intro r hr hdr
      rw [valAt_processLevel (d + 1) _ M r huni]
      rcases Nat.lt_or_ge (depthOf r) (d + 1) with hlt | hge
      · have hdq : depthOf r = d := by omega
        rw [h2 r hr (by omega)]
        have hrw : ∀ c ∈ (keysAtDepth (keysOf m) (d + 1)).filter
            (fun c => decide (parentOf c = some r)),
            valAt M c = eqSum m c + connSumK (keysOf m) m c := by
          intro c hcf
          have hc1 := List.mem_filter.mp hcf
          have hc2 := (mem_keysAtDepth _ _ c).mp hc1.1
          rw [h1 c hc2.1 (by omega), eqSum_eq_valAt m hnd c]
          rfl
        rw [List.map_congr_left hrw,
          show d + 1 = depthOf r + 1 from by omega,
          conn_partition (keysOf m) hnd r m
            (fun e he => List.mem_map_of_mem Prod.fst he)]
        rfl
      · have hfe : (keysAtDepth (keysOf m) (d + 1)).filter
            (fun c => decide (parentOf c = some r)) = [] := by
          rw [List.filter_eq_nil_iff]
          intro c hc
          simp only [decide_eq_true_eq]
          intro hpar
          have hcd := ((mem_keysAtDepth _ _ c).mp hc).2
          obtain ⟨_, hlen⟩ := parentOf_length c r hpar
          unfold depthOf at hcd hge
          omega
        rw [hfe, List.map_nil, sumStats_nil, stat_add_zero]
        exact h1 r hr hge
    · intro r hr hdr
      rw [valAt_processLevel (d + 1) _ M r huni]
      have hfe : (keysAtDepth (keysOf m) (d + 1)).filter
          (fun c => decide (parentOf c = some r)) = [] := by
        rw [List.filter_eq_nil_iff]
        intro c hc
        simp only [decide_eq_true_eq]
        intro hpar
        have hcd := ((mem_keysAtDepth _ _ c).mp hc).2
        obtain ⟨_, hlen⟩ := parentOf_length c r hpar
        unfold depthOf at hcd hdr
        omega
      rw [hfe, List.map_nil, sumStats_nil, stat_add_zero]
      exact h2 r hr (by omega)

/-- C4 counterexample: on the two-key map with keys `a/b/c` and `a`
(the intermediate parents `a/b` missing), the rolled-up total at the
input key `a` does not include the direct contribution of its
descendant `a/b/c`, so the claimed descendant-sum equality fails. -/
theorem c4_counterexample :
    valAt (rollup_child_to_parent
        [([PComp.name 0, PComp.name 1, PComp.name 2], ⟨1, 1, 1⟩),
         ([PComp.name 0], ⟨1, 1, 1⟩)]) [PComp.name 0]
      ≠ valAt
          [([PComp.name 0, PComp.name 1, PComp.name 2], ⟨1, 1, 1⟩),
           ([PComp.name 0], ⟨1, 1, 1⟩)] [PComp.name 0]
        + descSum
            [([PComp.name 0, PComp.name 1, PComp.name 2], ⟨1, 1, 1⟩),
             ([PComp.name 0], ⟨1, 1, 1⟩)] [PComp.name 0] := by
  decide

/-- C4 amended: `rollup_child_to_parent` processes keys by depth from
deepest to 1, adding each path's current statistic to its parent entry
and creating missing parent entries; afterwards, for every key `p` of
the input map, the total stored at `p` equals `p`'s own direct
contribution plus the direct contributions of exactly those input keys
below `p` whose entire parent chain strictly between them and `p`
consists of input keys.  When no intermediate parent is missing this
is the claimed sum over all descendants; with gaps (see the
counterexample) contributions strand at the first missing parent. -/
theorem c4_amended (m : SMap) (hnd : (keysOf m).Nodup) (p : RPath)
    (hp : p ∈ keysOf m) :
    valAt (rollup_child_to_parent m) p = valAt m p + connSum m p := by
  unfold rollup_child_to_parent
  refine rollup_inv m hnd (maxDepthOf (keysOf m)) m ?_ ?_ p hp
  · intro r hr hdr
    have hnil : m.filter (fun e => decide (connTo (keysOf m) e.1 r)) = [] := by
      rw [List.filter_eq_nil_iff]
      intro e he
      simp only [decide_eq_true_eq]
      intro hconn
      have h1 : e.1 ∈ keysOf m := List.mem_map_of_mem Prod.fst he
      have h2 : depthOf e.1 ≤ maxDepthOf (keysOf m) := le_maxDepthOf _ _ h1
      have h3 := mem_ancChain_length hconn.1
      unfold depthOf at h2 hdr
      omega
    have hcs : connSum m r = Stat.zero := by
      unfold connSum connSumK
      rw [hnil]
      rfl
    rw [hcs, stat_add_zero]
  · intro r _ _
    rfl

/-- C4 amended, witness: a gap-free two-key map (`a` and `a/b`). -/
theorem c4_amended_witness :
    (keysOf [([PComp.name 0], (⟨1, 2, 3⟩ : Stat)),
      ([PComp.name 0, PComp.name 1], ⟨4, 5, 6⟩)]).Nodup ∧
    [PComp.name 0] ∈ keysOf [([PComp.name 0], (⟨1, 2, 3⟩ : Stat)),
      ([PComp.name 0, PComp.name 1], ⟨4, 5, 6⟩)] ∧
    valAt (rollup_child_to_parent
        [([PComp.name 0], (⟨1, 2, 3⟩ : Stat)),
         ([PComp.name 0, PComp.name 1], ⟨4, 5, 6⟩)]) [PComp.name 0]
      = valAt [([PComp.name 0], (⟨1, 2, 3⟩ : Stat)),
          ([PComp.name 0, PComp.name 1], ⟨4, 5, 6⟩)] [PComp.name 0]
        + connSum [([PComp.name 0], (⟨1, 2, 3⟩ : Stat)),
            ([PComp.name 0, PComp.name 1], ⟨4, 5, 6⟩)] [PComp.name 0] :=
  ⟨by decide, by decide,
   c4_amended _ (by decide) _ (by decide)⟩

/-! ### Claim C10 — parent entries created by the rollup -/

theorem levelsDown_mem (k x : Nat) (h : x ∈ levelsDown k) :
    1 ≤ x ∧ x ≤ k := by
  induction k with
  | zero => cases h
  | succ n ih =>
    rcases List.mem_cons.mp h with rfl | h2
    · omega
    · have := ih h2
      omega

theorem levelsDown_split (n : Nat) :
    ∀ k, k ≤ n → ∃ pre, levelsDown n = pre ++ levelsDown k ∧
      ∀ x ∈ pre, k < x := by
  induction n with
  | zero =>
    intro k hk
    have he : k = 0 := Nat.le_zero.mp hk
    subst he
    exact ⟨[], rfl, by simp⟩
  | succ n ih =>
    intro k hk
    by_cases he : k = n + 1
    · subst he
      exact ⟨[], rfl, by simp⟩
    · obtain ⟨pre, hsp, hpre⟩ := ih k (by omega)
      refine ⟨(n + 1) :: pre, ?_, ?_⟩
      · rw [show levelsDown (n + 1) = (n + 1) :: levelsDown n from rfl, hsp]
        rfl
      · intro x hx
        rcases List.mem_cons.mp hx with rfl | hx2
        · omega
        · exact hpre x hx2

theorem levelFold_append (ks : List RPath) (M : SMap) (l1 l2 : List Nat) :
    levelFold ks M (l1 ++ l2) = levelFold ks (levelFold ks M l1) l2 := by
  unfold levelFold
  rw [List.foldl_append]

theorem levelsDown_succ_head (d : Nat) (h : 1 ≤ d) :
    levelsDown d = d :: levelsDown (d - 1) := by
  cases d with
  | zero => omega
  | succ e => rfl

/-- C10: for every input map and every key `p` with at least two
components, the rolled-up output contains an entry for `p`'s parent
(`Path::parent`, i.e. `p` without its last component) whose totals
include `p`'s totals componentwise — in particular the parent of a
scanned root itself, a path never enumerated by any worker, receives
an entry. -/
theorem c10_parent_entry (m : SMap) (hnd : (keysOf m).Nodup) (p : RPath)
    (hp : p ∈ keysOf m) (hlen : 2 ≤ p.length) :
    parentOf p = some p.dropLast ∧
    hasKey (rollup_child_to_parent m) p.dropLast = true ∧
    statLe (valAt (rollup_child_to_parent m) p)
      (valAt (rollup_child_to_parent m) p.dropLast) := by
  have hnc : ¬(p = [] ∨ p = [PComp.rootDir]) := by
    rintro (rfl | rfl) <;> simp at hlen
  have hpar : parentOf p = some p.dropLast := parentOf_nontrivial p hnc
  have hdp : depthOf p ≤ maxDepthOf (keysOf m) := le_maxDepthOf _ p hp
  obtain ⟨pre, hsplit, hpre⟩ :=
    levelsDown_split (maxDepthOf (keysOf m)) (depthOf p) hdp
  have hdp1 : 1 ≤ depthOf p := by
    unfold depthOf
    omega
  have hroll2 : rollup_child_to_parent m
      = levelFold (keysOf m)
          (processLevel (levelFold (keysOf m) m pre)
            (keysAtDepth (keysOf m) (depthOf p)))
          (levelsDown (depthOf p - 1)) := by
    unfold rollup_child_to_parent
    rw [hsplit, levelFold_append, levelsDown_succ_head _ hdp1,
      levelFold_cons]
  have hmemb : p ∈ keysAtDepth (keysOf m) (depthOf p) :=
    (mem_keysAtDepth _ _ p).mpr ⟨hp, rfl⟩
  have huni : ∀ c ∈ keysAtDepth (keysOf m) (depthOf p),
      depthOf c = depthOf p :=
    fun c hc => ((mem_keysAtDepth _ _ c).mp hc).2
  have hp_lvl : ∀ c ∈ keysAtDepth (keysOf m) (depthOf p),
      ¬ parentOf c = some p := by
    intro c hc hpc
    have hcd := ((mem_keysAtDepth _ _ c).mp hc).2
    obtain ⟨_, hl⟩ := parentOf_length c p hpc
    unfold depthOf at hcd
    omega
  have hp_after : ∀ x ∈ levelsDown (depthOf p - 1),
      ∀ c ∈ keysAtDepth (keysOf m) x, ¬ parentOf c = some p := by
    intro x hx c hc hpc
    have hxb := levelsDown_mem _ _ hx
    have hcd := ((mem_keysAtDepth _ _ c).mp hc).2
    obtain ⟨_, hl⟩ := parentOf_length c p hpc
    unfold depthOf at hcd hxb hdp1
    omega
  have hF3 : valAt (rollup_child_to_parent m) p
      = valAt (levelFold (keysOf m) m pre) p := by
    rw [hroll2, valAt_levelFold_skip _ _ _ p hp_after,
      valAt_processLevel_skip _ _ p hp_lvl]
  have hF1 : statLe (valAt (levelFold (keysOf m) m pre) p)
      (valAt (processLevel (levelFold (keysOf m) m pre)
        (keysAtDepth (keysOf m) (depthOf p))) p.dropLast) := by
    rw [valAt_processLevel (depthOf p) _ _ p.dropLast huni]
    have hmemf : p ∈ (keysAtDepth (keysOf m) (depthOf p)).filter
        (fun c => decide (parentOf c = some p.dropLast)) :=
      List.mem_filter.mpr ⟨hmemb, by simp [hpar]⟩
    have hmem2 : valAt (levelFold (keysOf m) m pre) p ∈
        ((keysAtDepth (keysOf m) (depthOf p)).filter
          (fun c => decide (parentOf c = some p.dropLast))).map
          (fun c => valAt (levelFold (keysOf m) m pre) c) :=
      List.mem_map_of_mem _ hmemf
    exact statLe_trans (mem_statLe_sumStats hmem2) (statLe_add_left _ _)
  have hF2 : statLe
      (valAt (processLevel (levelFold (keysOf m) m pre)
        (keysAtDepth (keysOf m) (depthOf p))) p.dropLast)
      (valAt (rollup_child_to_parent m) p.dropLast) := by
    rw [hroll2]
    exact statLe_valAt_levelFold _ _ _ _
  have hK1 : hasKey (levelFold (keysOf m) m pre) p = true :=
    hasKey_levelFold_mono _ pre m p (hasKey_of_mem_keys m p hp)
  have hK2 : hasKey (processLevel (levelFold (keysOf m) m pre)
      (keysAtDepth (keysOf m) (depthOf p))) p.dropLast = true :=
    hasKey_processLevel_parent _ _ p p.dropLast hmemb hpar hK1
  have hK3 : hasKey (rollup_child_to_parent m) p.dropLast = true := by
    rw [hroll2]
    exact hasKey_levelFold_mono _ _ _ _ hK2
  refine ⟨hpar, hK3, ?_⟩
  rw [hF3]
  exact statLe_trans hF1 hF2

/-- C10 witness: a single two-component key. -/
theorem c10_parent_entry_witness :
    (keysOf [([PComp.name 5, PComp.name 6], (⟨7, 8, 9⟩ : Stat))]).Nodup ∧
    [PComp.name 5, PComp.name 6] ∈
      keysOf [([PComp.name 5, PComp.name 6], (⟨7, 8, 9⟩ : Stat))] ∧
    2 ≤ ([PComp.name 5, PComp.name 6] : RPath).length ∧
    (parentOf [PComp.name 5, PComp.name 6]
        = some ([PComp.name 5, PComp.name 6] : RPath).dropLast ∧
     hasKey (rollup_child_to_parent
        [([PComp.name 5, PComp.name 6], (⟨7, 8, 9⟩ : Stat))])
        ([PComp.name 5, PComp.name 6] : RPath).dropLast = true ∧
     statLe (valAt (rollup_child_to_parent
          [([PComp.name 5, PComp.name 6], (⟨7, 8, 9⟩ : Stat))])
          [PComp.name 5, PComp.name 6])
       (valAt (rollup_child_to_parent
          [([PComp.name 5, PComp.name 6], (⟨7, 8, 9⟩ : Stat))])
          ([PComp.name 5, PComp.name 6] : RPath).dropLast)) :=
  ⟨by decide, by decide, by decide,
   c10_parent_entry [([PComp.name 5, PComp.name 6], (⟨7, 8, 9⟩ : Stat))]
     (by decide) [PComp.name 5, PComp.name 6] (by decide) (by decide)⟩
